import Mathlib

/-!
Verification development for the turtle-backtester trading engine
(`Trader.py`).  The Python classes `Unit`, `Security` and `Portfolio` are
shallowly embedded: prices and money are modelled as rationals (`ℚ`),
python `int` counters as `ℤ`/`ℕ`, pandas tables as explicit lists, and
functions that can `raise` as `Except String`-valued functions.
-/

set_option maxRecDepth 4000

/-- Arithmetic mean of a list of rationals (`np.mean` / `Series.mean`);
division by zero yields `0` in `ℚ`, which only occurs outside warm-up
preconditions. -/
def mean (xs : List ℚ) : ℚ := xs.sum / xs.length

/-- Python `int(x)`: truncation toward zero. -/
def pyInt (x : ℚ) : ℤ := if 0 ≤ x then ⌊x⌋ else ⌈x⌉

/-- Python `xs[-L:]` on a list/Series: the last `L` elements, except that
`L = 0` yields the whole sequence (python `xs[-0:] = xs[0:]`). -/
def pyTail (L : ℕ) (xs : List ℚ) : List ℚ :=
  if L = 0 then xs else xs.drop (xs.length - L)

/-- `Series.min()`: `none` plays the role of pandas `NaN` on an empty
window (comparisons against it are false). -/
def minQ : List ℚ → Option ℚ
  | [] => none
  | x :: xs => some (xs.foldl min x)

/-- `Series.max()`, with `none` for the empty window as in `minQ`. -/
def maxQ : List ℚ → Option ℚ
  | [] => none
  | x :: xs => some (xs.foldl max x)

/-- Helper for `listSub`: is the first character list an initial segment
of the second. -/
def listPre : List Char → List Char → Bool
  | [], _ => true
  | _ :: _, [] => false
  | a :: as, b :: bs => a == b && listPre as bs

/-- Contiguous-sublist test on character lists. -/
def listSub (n : List Char) : List Char → Bool
  | [] => listPre n []
  | b :: bs => listPre n (b :: bs) || listSub n bs

/-- Python's substring containment `needle in hay`. -/
def strIn (needle hay : String) : Bool := listSub needle.data hay.data

/-! ## Indicator engine (`Security.computeInitialATRs`, `updateATR`,
`updateEMA`, `computeInitialEMAs`, `computeInitialMACD`, `updateMACD`) -/

/-- `Security.updateEMA`: `multiplier = smoothing/(length+1)`;
`EMA = price·multiplier + (1−multiplier)·EMA`. -/
def updateEMA (ema : ℚ) (length : ℕ) (smoothing : ℚ) (price : ℚ) : ℚ :=
  let multiplier := smoothing / ((length : ℚ) + 1)
  price * multiplier + (1 - multiplier) * ema

/-- The `"L-EMA"` column written by `Security.computeInitialEMAs`, as a
function of the row index `i` (meaningful for `i ≥ L − 1`; the column is
NaN before that).  Seed at row `L−1` is the mean of the first `L` prices;
each later row applies `updateEMA` to that row's price. -/
def emaCol (smoothing : ℚ) (L : ℕ) (ps : List ℚ) (i : ℕ) : ℚ :=
  ((ps.drop L).take (i + 1 - L)).foldl (fun e p => updateEMA e L smoothing p)
    (mean (ps.take L))

/-- The `"MACD"` column of `Security.computeInitialMACD`:
smaller-length EMA minus larger-length EMA (meaningful from row
`Llg − 1` on). -/
def macdCol (smoothing : ℚ) (Lsm Llg : ℕ) (ps : List ℚ) (i : ℕ) : ℚ :=
  emaCol smoothing Lsm ps i - emaCol smoothing Llg ps i

/-- The `"Signal"` seed written by `Security.computeInitialMACD` at row
`(Llg−1)+(sigLen−1)`: the mean of `histData.loc[(Llg−1) : (Llg−1)+sigLen,
"MACD"]`.  The pandas `.loc` slice is end-inclusive, so this averages the
`sigLen + 1` MACD values at rows `Llg−1 … Llg−1+sigLen`. -/
def signalSeed (smoothing : ℚ) (Lsm Llg sigLen : ℕ) (ps : List ℚ) : ℚ :=
  mean ((List.range (sigLen + 1)).map (fun j => macdCol smoothing Lsm Llg ps (Llg - 1 + j)))

/-- The `"Signal"` column of `Security.computeInitialMACD` at row `i`
(meaningful for `i ≥ (Llg−1)+(sigLen−1)`): starting from `signalSeed`,
each loop iteration `i` applies `updateEMA` with price
`histData.loc[i−1, "MACD"]` — the PREVIOUS row's MACD. -/
def signalCol (smoothing : ℚ) (Lsm Llg sigLen : ℕ) (ps : List ℚ) (i : ℕ) : ℚ :=
  let s0 := (Llg - 1) + (sigLen - 1)
  ((List.range (i - s0)).map (fun k => s0 + k)).foldl
    (fun e j => updateEMA e sigLen smoothing (macdCol smoothing Lsm Llg ps j))
    (signalSeed smoothing Lsm Llg sigLen ps)

/-- The four scalar indicator attributes a `Security` carries
(`EMA_larger`, `EMA_smaller`, `MACD`, `signal`). -/
structure MACDState where
  emaLarger : ℚ
  emaSmaller : ℚ
  macd : ℚ
  signal : ℚ
deriving DecidableEq, Repr

/-- Tail of `Security.computeInitialMACD`: the scalar attributes are the
last entries (`iloc[-1]`) of the warm-up columns over `ps`. -/
def initMACDState (smoothing : ℚ) (Lsm Llg sigLen : ℕ) (ps : List ℚ) : MACDState :=
  { emaLarger := emaCol smoothing Llg ps (ps.length - 1)
    emaSmaller := emaCol smoothing Lsm ps (ps.length - 1)
    macd := macdCol smoothing Lsm Llg ps (ps.length - 1)
    signal := signalCol smoothing Lsm Llg sigLen ps (ps.length - 1) }

/-- `Security.updateMACD`: per-tick incremental step.  Both EMAs step with
the CURRENT price, `MACD` is their difference, and `signal` steps with the
CURRENT `MACD`. -/
def updateMACDStep (smoothing : ℚ) (Lsm Llg sigLen : ℕ) (st : MACDState) (currPrice : ℚ) :
    MACDState :=
  let elg := updateEMA st.emaLarger Llg smoothing currPrice
  let esm := updateEMA st.emaSmaller Lsm smoothing currPrice
  let m := esm - elg
  { emaLarger := elg, emaSmaller := esm, macd := m
    signal := updateEMA st.signal sigLen smoothing m }

/-- True-range list of a price series: `|p_i − p_{i−1}|` for `i ≥ 1`. -/
def trList : List ℚ → List ℚ
  | p0 :: p1 :: rest => |p1 - p0| :: trList (p1 :: rest)
  | _ => []

/-- One Wilder smoothing step `((window−1)·ATR + TR)/window`, shared by
`Security.computeInitialATRs` and `Security.updateATR`. -/
def wilderStep (window : ℕ) (atr tr : ℚ) : ℚ :=
  (((window : ℚ) - 1) * atr + tr) / window

/-- `Security.computeInitialATRs`: the mean of the first `window` true
ranges, then Wilder smoothing over the remaining true ranges. -/
def computeInitialATRs (window : ℕ) (ps : List ℚ) : ℚ :=
  ((trList ps).drop window).foldl (wilderStep window) (mean ((trList ps).take window))

/-- `Security.updateATR` as a pure step:
`TR = |currPrice − prevPrice|`, `ATR = ((window−1)·ATR + TR)/window`. -/
def updateATR (window : ℕ) (atr prevPrice currPrice : ℚ) : ℚ :=
  wilderStep window atr |currPrice - prevPrice|

/-- Modelled from the spec: the Signal warm-up seed as the spec words it —
the simple mean of the first `sigLen` MACD values starting right after the
slow EMA's own warm-up (i.e. at row `Llg − 1`). -/
def specSignalSeed (smoothing : ℚ) (Lsm Llg sigLen : ℕ) (ps : List ℚ) : ℚ :=
  mean ((List.range sigLen).map (fun j => macdCol smoothing Lsm Llg ps (Llg - 1 + j)))

/-! ## Trade book (`Portfolio.tradeBook`, `appendToDataFrame`,
`updateRowOfDataFrame`, `Portfolio.generateTradeID`) -/

/-- One `tradeBook` row.  Every cell is `Option`-valued: `none` is a
pandas NaN / not-yet-written cell.  Entry-time cells are filled by
`Portfolio.goLong`/`goShort`; exit-time cells by `popLong`/`popShort` and
the stop/breakout stamps. -/
structure Row where
  entryTime : Option String := none
  security : Option String := none
  longShort : Option String := none
  entryPrice : Option ℚ := none
  positionSize : Option ℤ := none
  lotSize : Option ℚ := none
  atrAtEntry : Option ℚ := none
  totalNetProfitsAtEntry : Option ℚ := none
  notionalAtEntry : Option ℚ := none
  tradeMargin : Option ℚ := none
  totalMargin : Option ℚ := none
  secStatus : Option String := none
  pfStatus : Option String := none
  stopPrice : Option ℚ := none
  exitTime : Option String := none
  exitType : Option String := none
  exitPrice : Option ℚ := none
  breakoutExitPrice : Option ℚ := none
  grossProfit : Option ℚ := none
  slippageCost : Option ℚ := none
  transactionCost : Option ℚ := none
  netProfit : Option ℚ := none
  atrAtExit : Option ℚ := none
deriving DecidableEq, Repr

/-- A row with every cell NaN. -/
def emptyRow : Row := {}

/-- The trade book: a label-indexed table, kept in insertion order. -/
abbrev Book := List (String × Row)

/-- First row with the given label, as `df.loc[id]` reads it. -/
def lookupBook (book : Book) (id : String) : Option Row :=
  (book.find? (fun kv => kv.1 == id)).map (fun kv => kv.2)

/-- Does a row with this label exist. -/
def bookHasKey (book : Book) (id : String) : Bool :=
  book.any (fun kv => kv.1 == id)

/-- `appendToDataFrame(df, row, index)` = `df.loc[index] = row`: replaces
every row at an existing label, otherwise appends a new row. -/
def appendBook (book : Book) (id : String) (r : Row) : Book :=
  if bookHasKey book id then
    book.map (fun kv => if kv.1 == id then (kv.1, r) else kv)
  else book ++ [(id, r)]

/-- `updateRowOfDataFrame(df, index, values, columns)` =
`df.loc[index, columns] = values`: updates the named cells of every row at
the label, or enlarges the table with a fresh row (other cells NaN) when
the label is absent. -/
def updateBook (book : Book) (id : String) (f : Row → Row) : Book :=
  if bookHasKey book id then
    book.map (fun kv => if kv.1 == id then (kv.1, f kv.2) else kv)
  else book ++ [(id, f emptyRow)]

/-- Number of rows carrying a label. -/
def countKey (book : Book) (id : String) : ℕ :=
  (book.filter (fun kv => kv.1 == id)).length

/-- `Portfolio.generateTradeID`: the MD5 hex digest of the unique string
`f"{timestamp}_{instrument}"`.  The digest is a deterministic function of
that string; hash collisions are outside the model, so the unique string
itself stands for its digest. -/
def mkTradeID (timestamp instrument : String) : String :=
  timestamp ++ "_" ++ instrument

/-! ## Position and lot model (`Unit`, `Security`, `Portfolio` state) -/

/-- A traded lot (`Unit`). -/
structure TUnit where
  tradeID : String
  long : Bool
  price : ℚ
  time : String
  tickNum : ℕ
  atr : ℚ
  stopLossFactor : ℚ
  originalStopPrice : ℚ
  stopPrice : ℚ
  unitSize : ℤ
  lotSize : ℚ
  value : ℚ
  marginFactor : ℚ
  marginReq : ℚ
  secName : String
deriving DecidableEq, Repr

/-- `Unit.__init__`: derived fields `originalStopPrice = price ∓
stopLossFactor·ATR` (minus for long), `stopPrice` initialised to it,
`value = price·unitSize·lotSize`, `marginReq = value·marginFactor`. -/
def mkUnit (tradeID : String) (isLong : Bool) (price : ℚ) (time : String) (tickNum : ℕ)
    (atr stopLossFactor : ℚ) (unitSize : ℤ) (lotSize marginFactor : ℚ)
    (secName : String) : TUnit :=
  let originalStopPrice :=
    if isLong then price - stopLossFactor * atr else price + stopLossFactor * atr
  let value := price * (unitSize : ℚ) * lotSize
  { tradeID := tradeID, long := isLong, price := price, time := time, tickNum := tickNum
    atr := atr, stopLossFactor := stopLossFactor, originalStopPrice := originalStopPrice
    stopPrice := originalStopPrice, unitSize := unitSize, lotSize := lotSize
    value := value, marginFactor := marginFactor, marginReq := value * marginFactor
    secName := secName }

/-- Position direction (the `type`/`position_type` strings `"long"` /
`"short"` of the python source, which are only ever those two literals). -/
inductive Dir where
  | long
  | short
deriving DecidableEq, Repr

/-- Per-`Security` state at a decision point.  `macd`/`signal` mirror the
scalar attributes `self.MACD`/`self.signal`; `prevMACD`/`prevSignal`
mirror `histData["MACD"].iat[-2]`/`histData["Signal"].iat[-2]` as read at
that point; `histPrices` is the `histData["price"]` column (strictly prior
ticks — the current tick is appended only after all decisions). -/
structure SecState where
  name : String
  histPrices : List ℚ
  lotSize : ℚ
  marginFactor : ℚ
  maxUnits : ℕ
  stopLossFactor : ℚ
  transCost : ℚ
  slippagePerContract : ℚ
  longPositions : List TUnit
  shortPositions : List TUnit
  equity : ℚ
  atr : ℚ
  unitSize : ℤ
  longEntryATR : ℚ
  shortEntryATR : ℚ
  macd : ℚ
  prevMACD : ℚ
  signal : ℚ
  prevSignal : ℚ
deriving DecidableEq, Repr

/-- `Portfolio` configuration, counters and trade book (everything except
the owned securities). -/
structure PfCore where
  entryType : String
  longAtHigh : Bool
  longBreakout : ℕ
  shortBreakout : ℕ
  addExtraUnits : String
  extraUnitATRFactor : ℚ
  useStops : Bool
  adjustStopsOnMoreUnits : Bool
  adjustStopATRFactor : ℚ
  exitType : String
  exitLongBreakout : ℕ
  exitShortBreakout : ℕ
  notionalAccountSize : ℚ
  adjustNotionalAccountSize : Bool
  riskPercentOfAccount : ℚ
  maxPositionLimitEachWay : ℕ
  maxMargin : ℚ
  marginTotal : ℚ
  numLongPositions : ℤ
  numShortPositions : ℤ
  equity : ℚ
  totalNetProfits : ℚ
  tradeBook : Book
deriving DecidableEq, Repr

/-- A whole portfolio: core plus owned securities. -/
structure PF where
  core : PfCore
  securities : List SecState
deriving DecidableEq, Repr

/-- `Security.getQuickSummary` string `"{n}L {m}S"`. -/
def quickStrN (a b : ℕ) : String :=
  toString a ++ "L" ++ " " ++ toString b ++ "S"

/-- The string `Portfolio.getQuickSummary` returns when its cross-check
passes (see `getQuickSummaryE`). -/
def quickStrZ (a b : ℤ) : String :=
  toString a ++ "L" ++ " " ++ toString b ++ "S"

/-! ## P&L on close (`Security.getPopStats`) and unit sizing -/

/-- Result quadruple of `Security.getPopStats`. -/
structure PopStats where
  grossProfit : ℚ
  slippageCost : ℚ
  transCost : ℚ
  netProfit : ℚ
deriving DecidableEq, Repr

/-- `Security.getPopStats`: gross profit, slippage cost (2 legs), the
transaction cost as the sum of the two slippage-adjusted legs, and net
profit. -/
def getPopStats (sec : SecState) (sellPrice buyPrice : ℚ) (unitSize : ℤ) : PopStats :=
  let buyValue := buyPrice * (unitSize : ℚ) * sec.lotSize
  let sellValue := sellPrice * (unitSize : ℚ) * sec.lotSize
  let grossProfit := sellValue - buyValue
  let slippageCost := 2 * sec.slippagePerContract * sec.lotSize * (unitSize : ℚ)
  let sellTransCost := sec.transCost * (sellPrice - sec.slippagePerContract) * sec.lotSize * (unitSize : ℚ)
  let buyTransCost := sec.transCost * (buyPrice + sec.slippagePerContract) * sec.lotSize * (unitSize : ℚ)
  let transCost := sellTransCost + buyTransCost
  { grossProfit := grossProfit, slippageCost := slippageCost, transCost := transCost
    netProfit := sellValue - buyValue - slippageCost - transCost }

/-- `Security.updateUnitSize`: `int(risk%/100 · notional / (ATR·lotSize))`
clamped below at 0. -/
def updateUnitSize (core : PfCore) (sec : SecState) : SecState :=
  let raw := pyInt ((core.riskPercentOfAccount / 100 * core.notionalAccountSize) /
    (sec.atr * sec.lotSize))
  { sec with unitSize := if raw < 0 then 0 else raw }

/-! ## Opening and closing units (`Security.goLong/goShort/popLongUnit/
popShortUnit` composed with `Portfolio.goLong/goShort/popLong/popShort`) -/

/-- The entry-time book row written by `Portfolio.goLong`/`goShort`. -/
def entryRow (time secName ls : String) (price : ℚ) (size : ℤ) (lot atr tnp notional
    margin totalMargin : ℚ) (secStat pfStat : String) : Row :=
  { entryTime := some time, security := some secName, longShort := some ls
    entryPrice := some price, positionSize := some size, lotSize := some lot
    atrAtEntry := some atr, totalNetProfitsAtEntry := some tnp
    notionalAtEntry := some notional, tradeMargin := some margin
    totalMargin := some totalMargin, secStatus := some secStat, pfStatus := some pfStat }

/-- `Portfolio.goLong` (which calls `Security.goLong`): caps the unit size
by the margin ceiling, creates the `Unit`, appends it to `longPositions`,
updates equities, margin total and the long counter, and writes the entry
book row keyed by the generated trade id.  The row's `Pf Status` cell is
the string `Portfolio.getQuickSummary` returns on consistent states; its
raising branch is modelled separately by `getQuickSummaryE`. -/
def pfGoLong (core : PfCore) (sec : SecState) (price : ℚ) (time : String) (tickNum : ℕ) :
    PfCore × SecState :=
  let tradeID := mkTradeID time sec.name
  let maxUnitSize := pyInt (core.maxMargin / (sec.marginFactor * price * sec.lotSize))
  let size := if sec.unitSize > maxUnitSize then maxUnitSize else sec.unitSize
  let u := mkUnit tradeID true price time tickNum sec.longEntryATR sec.stopLossFactor size
    sec.lotSize sec.marginFactor sec.name
  let sec' := { sec with
    longPositions := sec.longPositions ++ [u]
    equity := sec.equity - u.value }
  let core' := { core with
    marginTotal := core.marginTotal + u.marginReq
    numLongPositions := core.numLongPositions + 1
    equity := core.equity - u.value }
  let row := entryRow time sec.name "Long" price u.unitSize sec.lotSize sec.atr
    core.totalNetProfits core.notionalAccountSize u.marginReq core'.marginTotal
    (quickStrN sec'.longPositions.length sec'.shortPositions.length)
    (quickStrZ core'.numLongPositions core'.numShortPositions)
  ({ core' with tradeBook := appendBook core'.tradeBook tradeID row }, sec')

/-- `Portfolio.goShort` (which calls `Security.goShort`): mirror image of
`pfGoLong` on the short side. -/
def pfGoShort (core : PfCore) (sec : SecState) (price : ℚ) (time : String) (tickNum : ℕ) :
    PfCore × SecState :=
  let tradeID := mkTradeID time sec.name
  let maxUnitSize := pyInt (core.maxMargin / (sec.marginFactor * price * sec.lotSize))
  let size := if sec.unitSize > maxUnitSize then maxUnitSize else sec.unitSize
  let u := mkUnit tradeID false price time tickNum sec.shortEntryATR sec.stopLossFactor size
    sec.lotSize sec.marginFactor sec.name
  let sec' := { sec with
    shortPositions := sec.shortPositions ++ [u]
    equity := sec.equity + u.value }
  let core' := { core with
    marginTotal := core.marginTotal + u.marginReq
    numShortPositions := core.numShortPositions + 1
    equity := core.equity + u.value }
  let row := entryRow time sec.name "Short" price u.unitSize sec.lotSize sec.atr
    core.totalNetProfits core.notionalAccountSize u.marginReq core'.marginTotal
    (quickStrN sec'.longPositions.length sec'.shortPositions.length)
    (quickStrZ core'.numLongPositions core'.numShortPositions)
  ({ core' with tradeBook := appendBook core'.tradeBook tradeID row }, sec')

/-- The nine exit-time cells written by `Portfolio.popLong`/`popShort`
(`columns_to_update`/`values_to_update`). -/
def exitCells (stop : ℚ) (time etype : String) (price : ℚ) (st : PopStats)
    (atrExit : ℚ) : Row → Row :=
  fun r => { r with
    stopPrice := some stop, exitTime := some time, exitType := some etype
    exitPrice := some price, grossProfit := some st.grossProfit
    slippageCost := some st.slippageCost, transactionCost := some st.transCost
    netProfit := some st.netProfit, atrAtExit := some atrExit }

/-- The `"Stop out"` overwrite of the exit-type cell in
`checkStopsByPositionType`. -/
def stampStopOut : Row → Row := fun r => { r with exitType := some "Stop out" }

/-- The `"Breakout Exit Price"` stamp of the breakout exit branch. -/
def stampBreakout (thr : ℚ) : Row → Row :=
  fun r => { r with breakoutExitPrice := some thr }

/-- `Portfolio.popLong` (which calls `Security.popLongUnit`), minus the
`longPositions.pop(index)` itself, which each call site performs on the
list: sells unit `u` at `price`, updating security equity, the long
counter, portfolio equity, running net profits, margin total, the exit
cells of the unit's book row, and (if configured) the notional account. -/
def popLongEffects (core : PfCore) (sec : SecState) (u : TUnit) (price : ℚ)
    (time : String) : PfCore × SecState :=
  let sellAmount := price * (u.unitSize : ℚ) * sec.lotSize
  let sec' := { sec with equity := sec.equity + sellAmount }
  let st := getPopStats sec price u.price u.unitSize
  let core' := { core with
    numLongPositions := core.numLongPositions - 1
    equity := core.equity + sellAmount
    totalNetProfits := core.totalNetProfits + st.netProfit
    marginTotal := core.marginTotal - u.marginReq }
  let book := updateBook core'.tradeBook u.tradeID
    (exitCells u.stopPrice time core.exitType price st sec.atr)
  ({ core' with
    tradeBook := book
    notionalAccountSize := if core.adjustNotionalAccountSize then
      core.notionalAccountSize + st.netProfit else core.notionalAccountSize }, sec')

/-- `Portfolio.popShort` (which calls `Security.popShortUnit`), minus the
list `pop(index)` performed by call sites: buys back unit `u` at `price`
with the mirror-image updates of `popLongEffects`. -/
def popShortEffects (core : PfCore) (sec : SecState) (u : TUnit) (price : ℚ)
    (time : String) : PfCore × SecState :=
  let buyAmount := price * (u.unitSize : ℚ) * sec.lotSize
  let sec' := { sec with equity := sec.equity - buyAmount }
  let st := getPopStats sec u.price price u.unitSize
  let core' := { core with
    numShortPositions := core.numShortPositions - 1
    equity := core.equity - buyAmount
    totalNetProfits := core.totalNetProfits + st.netProfit
    marginTotal := core.marginTotal - u.marginReq }
  let book := updateBook core'.tradeBook u.tradeID
    (exitCells u.stopPrice time core.exitType price st sec.atr)
  ({ core' with
    tradeBook := book
    notionalAccountSize := if core.adjustNotionalAccountSize then
      core.notionalAccountSize + st.netProfit else core.notionalAccountSize }, sec')

/-! ## Entry evaluation (`Portfolio.checkToAddNewUnit`,
`checkToAddMoreUnits`, `addUnits`, `checkEntries`) -/

/-- Comparison `x > o` against a possibly-NaN threshold: false on NaN. -/
def gtOpt (x : ℚ) (o : Option ℚ) : Bool :=
  match o with
  | none => false
  | some v => decide (x > v)

/-- Comparison `x < o` against a possibly-NaN threshold: false on NaN. -/
def ltOpt (x : ℚ) (o : Option ℚ) : Bool :=
  match o with
  | none => false
  | some v => decide (x < v)

/-- The entry `priceCondition` of `Portfolio.checkToAddNewUnit`: starts
`True`; the three entry families are substring-dispatched and mutually
exclusive (`elif`); the `MACD-Signal Condition` and `Polarity Condition`
substrings add conjuncts.  An `entryType` naming no family leaves the
condition `True`. -/
def entryPriceCondition (core : PfCore) (sec : SecState) (currPrice : ℚ) (dir : Dir)
    (entryType : String) : Bool :=
  let cond0 : Bool :=
    if strIn "Breakout" entryType then
      let breakoutLength := match dir with
        | .long => core.longBreakout
        | .short => core.shortBreakout
      let recentData := pyTail breakoutLength sec.histPrices
      let prevHigh : Option ℚ :=
        if recentData.length < breakoutLength then none else maxQ recentData
      let prevLow : Option ℚ :=
        if recentData.length < breakoutLength then none else minQ recentData
      let base : Bool := match dir, core.longAtHigh with
        | .long, true => gtOpt currPrice prevHigh
        | .long, false => ltOpt currPrice prevLow
        | .short, true => ltOpt currPrice prevLow
        | .short, false => gtOpt currPrice prevHigh
      if strIn "MACD-Signal Condition" entryType then
        match dir with
        | .long => base && decide (sec.macd > sec.signal)
        | .short => base && decide (sec.macd < sec.signal)
      else base
    else if strIn "MACD-Signal Crossover" entryType then
      match dir with
      | .long => decide (sec.macd > sec.signal) && decide (sec.prevMACD < sec.prevSignal)
      | .short => decide (sec.macd < sec.signal) && decide (sec.prevMACD > sec.prevSignal)
    else if strIn "MACD-Zero Crossover" entryType then
      match dir with
      | .long => decide (sec.macd > 0) && decide (sec.prevMACD < 0)
      | .short => decide (sec.macd < 0) && decide (sec.prevMACD > 0)
    else true
  if strIn "Polarity Condition" entryType then
    match dir with
    | .long => cond0 && decide (sec.prevSignal < 0)
    | .short => cond0 && decide (sec.prevSignal > 0)
  else cond0

/-- `Portfolio.checkToAddNewUnit`: evaluates `entryPriceCondition` and,
when it holds, refreshes the unit size, snapshots the direction's entry
ATR and opens the unit via `goLong`/`goShort`.  The function has no
raising branch. -/
def checkToAddNewUnit (core : PfCore) (sec : SecState) (currPrice : ℚ) (time : String)
    (tickNum : ℕ) (dir : Dir) (entryType : String) : Bool × PfCore × SecState :=
  if entryPriceCondition core sec currPrice dir entryType then
    let sec1 := updateUnitSize core sec
    let sec2 := match dir with
      | .long => { sec1 with longEntryATR := sec1.atr }
      | .short => { sec1 with shortEntryATR := sec1.atr }
    let res := match dir with
      | .long => pfGoLong core sec2 currPrice time tickNum
      | .short => pfGoShort core sec2 currPrice time tickNum
    (true, res.1, res.2)
  else (false, core, sec)

/-- `Portfolio.checkToAddMoreUnits` (pyramiding `"Using ATR"`): adds a
unit when price has moved at least `extraUnitATRFactor × entryATR` in the
favourable direction since the most recently added unit, then (if
configured) re-centres every stop by rank.  The `getLast?` guard is
unreachable at call sites — `addUnits` only calls this when the direction
is entered. -/
def checkToAddMoreUnits (core : PfCore) (sec : SecState) (currPrice : ℚ) (time : String)
    (tickNum : ℕ) (dir : Dir) : Bool × PfCore × SecState :=
  match dir with
  | .long =>
    match sec.longPositions.getLast? with
    | none => (false, core, sec)
    | some latestUnit =>
      let priceDifference := currPrice - latestUnit.price
      if priceDifference ≥ core.extraUnitATRFactor * sec.longEntryATR then
        let res := pfGoLong core sec currPrice time tickNum
        let sec' := res.2
        let sec'' := if core.adjustStopsOnMoreUnits then
            { sec' with longPositions := sec'.longPositions.mapIdx (fun unitNo u =>
              { u with stopPrice := u.originalStopPrice +
                (((sec'.longPositions.length : ℤ) - 1 - (unitNo : ℤ) : ℤ) : ℚ) *
                  core.adjustStopATRFactor * u.atr }) }
          else sec'
        (true, res.1, sec'')
      else (false, core, sec)
  | .short =>
    match sec.shortPositions.getLast? with
    | none => (false, core, sec)
    | some latestUnit =>
      let priceDifference := latestUnit.price - currPrice
      if priceDifference ≥ core.extraUnitATRFactor * sec.shortEntryATR then
        let res := pfGoShort core sec currPrice time tickNum
        let sec' := res.2
        let sec'' := if core.adjustStopsOnMoreUnits then
            { sec' with shortPositions := sec'.shortPositions.mapIdx (fun unitNo u =>
              { u with stopPrice := u.originalStopPrice +
                (((sec'.shortPositions.length : ℤ) - 1 - (unitNo : ℤ) : ℤ) : ℚ) *
                  (-core.adjustStopATRFactor) * u.atr }) }
          else sec'
        (true, res.1, sec'')
      else (false, core, sec)

/-- The body of `Portfolio.addUnits` for one security: capacity guards,
then fresh entry / configured pyramiding policy, with the `raise` for an
unrecognised `addExtraUnits` value (matching first on the direction
literal `"long"`/`"short"`). -/
def addUnitsStep (core : PfCore) (sec : SecState) (currPrice : ℚ) (time : String)
    (tickNum : ℕ) : Dir → Except String (PfCore × SecState × ℕ)
  | Dir.long =>
    if decide (sec.longPositions.length + sec.shortPositions.length ≥ sec.maxUnits) ||
        decide (core.numLongPositions ≥ (core.maxPositionLimitEachWay : ℤ)) then
      .ok (core, sec, 0)
    else if sec.longPositions.isEmpty then
      let res := checkToAddNewUnit core sec currPrice time tickNum Dir.long core.entryType
      .ok (res.2.1, res.2.2, if res.1 then 1 else 0)
    else if core.addExtraUnits = "As new unit" then
      let res := checkToAddNewUnit core sec currPrice time tickNum Dir.long core.entryType
      .ok (res.2.1, res.2.2, if res.1 then 1 else 0)
    else if core.addExtraUnits = "Using ATR" then
      let res := checkToAddMoreUnits core sec currPrice time tickNum Dir.long
      .ok (res.2.1, res.2.2, if res.1 then 1 else 0)
    else if core.addExtraUnits = "No" then
      .ok (core, sec, 0)
    else
      .error "Invalid type for Portfolio attribute addExtraUnits"
  | Dir.short =>
    if decide (sec.longPositions.length + sec.shortPositions.length ≥ sec.maxUnits) ||
        decide (core.numShortPositions ≥ (core.maxPositionLimitEachWay : ℤ)) then
      .ok (core, sec, 0)
    else if sec.shortPositions.isEmpty then
      let res := checkToAddNewUnit core sec currPrice time tickNum Dir.short core.entryType
      .ok (res.2.1, res.2.2, if res.1 then 1 else 0)
    else if core.addExtraUnits = "As new unit" then
      let res := checkToAddNewUnit core sec currPrice time tickNum Dir.short core.entryType
      .ok (res.2.1, res.2.2, if res.1 then 1 else 0)
    else if core.addExtraUnits = "Using ATR" then
      let res := checkToAddMoreUnits core sec currPrice time tickNum Dir.short
      .ok (res.2.1, res.2.2, if res.1 then 1 else 0)
    else if core.addExtraUnits = "No" then
      .ok (core, sec, 0)
    else
      .error "Invalid type for Portfolio attribute addExtraUnits"

/-- The `for secNo, sec in enumerate(self.securities)` loop of
`Portfolio.addUnits`, threading the core left to right. -/
def addUnitsLoop (time : String) (tickNum : ℕ) (dir : Dir) :
    PfCore → List (SecState × ℚ) → Except String (PfCore × List SecState × ℕ)
  | core, [] => .ok (core, [], 0)
  | core, (sec, currPrice) :: rest =>
    match addUnitsStep core sec currPrice time tickNum dir with
    | .error e => .error e
    | .ok (core1, sec1, k) =>
      match addUnitsLoop time tickNum dir core1 rest with
      | .error e => .error e
      | .ok (core2, secs, m) => .ok (core2, sec1 :: secs, k + m)

/-- `Portfolio.addUnits` for one direction over the aligned price list
(`run_simulation` always supplies one price per security). -/
def addUnits (pf : PF) (currPriceList : List ℚ) (time : String) (tickNum : ℕ) (dir : Dir) :
    Except String (PF × ℕ) :=
  match addUnitsLoop time tickNum dir pf.core (pf.securities.zip currPriceList) with
  | .error e => .error e
  | .ok (core', secs', n) => .ok (⟨core', secs'⟩, n)

/-- `Portfolio.checkEntries`: the long pass followed by the short pass. -/
def checkEntries (pf : PF) (currPriceList : List ℚ) (time : String) (tickNum : ℕ) :
    Except String (PF × ℕ) :=
  match addUnits pf currPriceList time tickNum Dir.long with
  | .error e => .error e
  | .ok (pf1, n1) =>
    match addUnits pf1 currPriceList time tickNum Dir.short with
    | .error e => .error e
    | .ok (pf2, n2) => .ok (pf2, n1 + n2)

/-! ## Stop-loss evaluation (`Portfolio.checkStopsByPositionType`,
`checkStops`) -/

/-- The long stop condition string `"currPrice < unit.stopPrice"`. -/
def stopHitLong (currPrice : ℚ) (u : TUnit) : Bool := decide (currPrice < u.stopPrice)

/-- The short stop condition string `"currPrice > unit.stopPrice"`. -/
def stopHitShort (currPrice : ℚ) (u : TUnit) : Bool := decide (currPrice > u.stopPrice)

/-- The `for unitNo in range(len(positions)−1, −1, −1)` sweep of
`checkStopsByPositionType` over one security's long list: units are
examined from the last index down to the first, each hit is popped
(`popLong`) and its row's exit-type cell overwritten with `"Stop out"`;
the returned list is what remains. -/
def sweepLongs (currPrice : ℚ) (time : String) :
    PfCore → SecState → List TUnit → PfCore × SecState × List TUnit
  | core, sec, [] => (core, sec, [])
  | core, sec, u :: us =>
    let r := sweepLongs currPrice time core sec us
    if stopHitLong currPrice u then
      let p := popLongEffects r.1 r.2.1 u currPrice time
      let bk := updateBook p.1.tradeBook u.tradeID stampStopOut
      let c := { p.1 with tradeBook := bk }
      (c, p.2, r.2.2)
    else (r.1, r.2.1, u :: r.2.2)

/-- Mirror sweep over one security's short list. -/
def sweepShorts (currPrice : ℚ) (time : String) :
    PfCore → SecState → List TUnit → PfCore × SecState × List TUnit
  | core, sec, [] => (core, sec, [])
  | core, sec, u :: us =>
    let r := sweepShorts currPrice time core sec us
    if stopHitShort currPrice u then
      let p := popShortEffects r.1 r.2.1 u currPrice time
      let bk := updateBook p.1.tradeBook u.tradeID stampStopOut
      let c := { p.1 with tradeBook := bk }
      (c, p.2, r.2.2)
    else (r.1, r.2.1, u :: r.2.2)

/-- `checkStopsByPositionType(..., positionType="long")`: the per-security
loop of the long stop sweep. -/
def checkStopsLongPass (time : String) :
    PfCore → List (SecState × ℚ) → PfCore × List SecState
  | core, [] => (core, [])
  | core, (sec, currPrice) :: rest =>
    let r := sweepLongs currPrice time core sec sec.longPositions
    let sec' := { r.2.1 with longPositions := r.2.2 }
    let t := checkStopsLongPass time r.1 rest
    (t.1, sec' :: t.2)

/-- `checkStopsByPositionType(..., positionType="short")`. -/
def checkStopsShortPass (time : String) :
    PfCore → List (SecState × ℚ) → PfCore × List SecState
  | core, [] => (core, [])
  | core, (sec, currPrice) :: rest =>
    let r := sweepShorts currPrice time core sec sec.shortPositions
    let sec' := { r.2.1 with shortPositions := r.2.2 }
    let t := checkStopsShortPass time r.1 rest
    (t.1, sec' :: t.2)

/-- `Portfolio.checkStops`: no-op when stops are disabled, otherwise the
long pass over all securities followed by the short pass. -/
def checkStops (pf : PF) (currPriceList : List ℚ) (time : String) : PF :=
  if pf.core.useStops = false then pf
  else
    let a := checkStopsLongPass time pf.core (pf.securities.zip currPriceList)
    let b := checkStopsShortPass time a.1 (a.2.zip currPriceList)
    ⟨b.1, b.2⟩

/-! ## Exit evaluation (`Portfolio.checkExits`) -/

/-- The `while ... pop(0)` loop of the `"Timed"` exit branch on the long
list: pops from the front while the horizon condition holds. -/
def timedPopLongs (currPrice : ℚ) (time : String) (tickNum : ℕ) :
    PfCore → SecState → List TUnit → PfCore × SecState × List TUnit × ℕ
  | core, sec, [] => (core, sec, [], 0)
  | core, sec, u :: us =>
    if (tickNum : ℤ) - (u.tickNum : ℤ) ≥ (core.exitLongBreakout : ℤ) then
      let p := popLongEffects core sec u currPrice time
      let r := timedPopLongs currPrice time tickNum p.1 p.2 us
      (r.1, r.2.1, r.2.2.1, r.2.2.2 + 1)
    else (core, sec, u :: us, 0)

/-- The `"Timed"` front-popping loop on the short list. -/
def timedPopShorts (currPrice : ℚ) (time : String) (tickNum : ℕ) :
    PfCore → SecState → List TUnit → PfCore × SecState × List TUnit × ℕ
  | core, sec, [] => (core, sec, [], 0)
  | core, sec, u :: us =>
    if (tickNum : ℤ) - (u.tickNum : ℤ) ≥ (core.exitShortBreakout : ℤ) then
      let p := popShortEffects core sec u currPrice time
      let r := timedPopShorts currPrice time tickNum p.1 p.2 us
      (r.1, r.2.1, r.2.2.1, r.2.2.2 + 1)
    else (core, sec, u :: us, 0)

/-- The `while sec.longPositions: ... popLong(..., -1)` close-all loop:
the argument list is the position list REVERSED (last unit first, as the
loop pops index −1), and `stampThr` is the `"Breakout Exit Price"` written
after each pop in the `"Breakout"` exit branch (`none` for the
MACD-crossover branch, which writes no stamp). -/
def closeLongsRev (currPrice : ℚ) (time : String) (stampThr : Option ℚ) :
    PfCore → SecState → List TUnit → PfCore × SecState × ℕ
  | core, sec, [] => (core, sec, 0)
  | core, sec, u :: us =>
    let p := popLongEffects core sec u currPrice time
    let c := match stampThr with
      | none => p.1
      | some thr =>
        let bk := updateBook p.1.tradeBook u.tradeID (stampBreakout thr)
        { p.1 with tradeBook := bk }
    let r := closeLongsRev currPrice time stampThr c p.2 us
    (r.1, r.2.1, r.2.2 + 1)

/-- Mirror close-all loop on the short side. -/
def closeShortsRev (currPrice : ℚ) (time : String) (stampThr : Option ℚ) :
    PfCore → SecState → List TUnit → PfCore × SecState × ℕ
  | core, sec, [] => (core, sec, 0)
  | core, sec, u :: us =>
    let p := popShortEffects core sec u currPrice time
    let c := match stampThr with
      | none => p.1
      | some thr =>
        let bk := updateBook p.1.tradeBook u.tradeID (stampBreakout thr)
        { p.1 with tradeBook := bk }
    let r := closeShortsRev currPrice time stampThr c p.2 us
    (r.1, r.2.1, r.2.2 + 1)

/-- One security of the `"Timed"` exit branch. -/
def exitsTimedSec (currPrice : ℚ) (time : String) (tickNum : ℕ) (core : PfCore)
    (sec : SecState) : PfCore × SecState × ℕ :=
  let a := timedPopLongs currPrice time tickNum core sec sec.longPositions
  let secA := { a.2.1 with longPositions := a.2.2.1 }
  let b := timedPopShorts currPrice time tickNum a.1 secA secA.shortPositions
  let secB := { b.2.1 with shortPositions := b.2.2.1 }
  (b.1, secB, a.2.2.2 + b.2.2.2)

/-- One security of the `"Breakout"` exit branch.  The long side tests the
rolling low of the last `exitLongBreakout` prior prices; the short side
tests the rolling high of the last `exitLongBreakout` prior prices — the
source reads `self.exitLongBreakout` in BOTH window slices
(`histPriceData[-self.exitLongBreakout:]`). -/
def exitsBreakoutSec (currPrice : ℚ) (time : String) (core : PfCore)
    (sec : SecState) : PfCore × SecState × ℕ :=
  let histPriceData := sec.histPrices
  let a :=
    if sec.longPositions.isEmpty then (core, sec, 0)
    else
      let prevLow := minQ (pyTail core.exitLongBreakout histPriceData)
      if ltOpt currPrice prevLow then
        let r := closeLongsRev currPrice time prevLow core sec sec.longPositions.reverse
        (r.1, { r.2.1 with longPositions := [] }, r.2.2)
      else (core, sec, 0)
  let secA := a.2.1
  if secA.shortPositions.isEmpty then (a.1, secA, a.2.2)
  else
    let prevHigh := maxQ (pyTail core.exitLongBreakout histPriceData)
    if gtOpt currPrice prevHigh then
      let r := closeShortsRev currPrice time prevHigh a.1 secA secA.shortPositions.reverse
      (r.1, { r.2.1 with shortPositions := [] }, a.2.2 + r.2.2)
    else (a.1, secA, a.2.2)

/-- One security of the `"MACD-Signal Crossover"` exit branch: a downward
crossover closes all longs, an upward one closes all shorts (no breakout
stamp). -/
def exitsMACDSec (currPrice : ℚ) (time : String) (core : PfCore)
    (sec : SecState) : PfCore × SecState × ℕ :=
  let a :=
    if decide (sec.macd < sec.signal) && decide (sec.prevMACD > sec.prevSignal) then
      let r := closeLongsRev currPrice time none core sec sec.longPositions.reverse
      (r.1, { r.2.1 with longPositions := [] }, r.2.2)
    else (core, sec, 0)
  let secA := a.2.1
  if decide (sec.macd > sec.signal) && decide (sec.prevMACD < sec.prevSignal) then
    let r := closeShortsRev currPrice time none a.1 secA secA.shortPositions.reverse
    (r.1, { r.2.1 with shortPositions := [] }, a.2.2 + r.2.2)
  else (a.1, secA, a.2.2)

/-- The per-security loop of one `checkExits` branch. -/
def exitsLoop (step : PfCore → SecState × ℚ → PfCore × SecState × ℕ) :
    PfCore → List (SecState × ℚ) → PfCore × List SecState × ℕ
  | core, [] => (core, [], 0)
  | core, sp :: rest =>
    let a := step core sp
    let r := exitsLoop step a.1 rest
    (r.1, a.2.1 :: r.2.1, a.2.2 + r.2.2)

/-- `Portfolio.checkExits`: dispatch on `exitType` with the `raise` for an
unrecognised value. -/
def checkExits (pf : PF) (currPriceList : List ℚ) (time : String) (tickNum : ℕ) :
    Except String (PF × ℕ) :=
  let pairs := pf.securities.zip currPriceList
  if pf.core.exitType = "Timed" then
    let r := exitsLoop (fun core sp => exitsTimedSec sp.2 time tickNum core sp.1)
      pf.core pairs
    .ok (⟨r.1, r.2.1⟩, r.2.2)
  else if pf.core.exitType = "Breakout" then
    let r := exitsLoop (fun core sp => exitsBreakoutSec sp.2 time core sp.1) pf.core pairs
    .ok (⟨r.1, r.2.1⟩, r.2.2)
  else if pf.core.exitType = "MACD-Signal Crossover" then
    let r := exitsLoop (fun core sp => exitsMACDSec sp.2 time core sp.1) pf.core pairs
    .ok (⟨r.1, r.2.1⟩, r.2.2)
  else
    .error "Portfolio attribute exitType is neither Timed nor Breakout."

/-! ## Position-count bookkeeping (`Portfolio.getQuickSummary` and the
operations that open or close units) -/

/-- Sum of `getNumLongPositions()` over the securities. -/
def sumLongs (secs : List SecState) : ℤ :=
  (secs.map (fun s => (s.longPositions.length : ℤ))).sum

/-- Sum of `getNumShortPositions()` over the securities. -/
def sumShorts (secs : List SecState) : ℤ :=
  (secs.map (fun s => (s.shortPositions.length : ℤ))).sum

/-- The position-count invariant as a boolean: the portfolio counters
match the per-security sums. -/
def countInvB (pf : PF) : Bool :=
  decide (pf.core.numLongPositions = sumLongs pf.securities) &&
    decide (pf.core.numShortPositions = sumShorts pf.securities)

/-- `Portfolio.getQuickSummary`: recomputes the per-security sums, raises
`RuntimeError("Doesn\x27t match")` when either disagrees with the counter,
and otherwise returns the `"{n}L {m}S"` status string. -/
def getQuickSummaryE (pf : PF) : Except String String :=
  if countInvB pf then
    .ok (quickStrZ pf.core.numLongPositions pf.core.numShortPositions)
  else .error "Doesn\x27t match"

/-- The four operations that open or close a `Unit`, applied at a security
index: `Portfolio.goLong`/`goShort` and `Portfolio.popLong`/`popShort` at
a list index (an out-of-range index is the python `IndexError`, modelled
as `none`). -/
inductive TradeOp where
  | enterLong (i : ℕ) (price : ℚ) (time : String) (tick : ℕ)
  | enterShort (i : ℕ) (price : ℚ) (time : String) (tick : ℕ)
  | exitLong (i j : ℕ) (price : ℚ) (time : String)
  | exitShort (i j : ℕ) (price : ℚ) (time : String)
deriving DecidableEq, Repr

/-- Apply one unit-opening/closing operation to the portfolio. -/
def applyOp (pf : PF) : TradeOp → Option PF
  | .enterLong i price time tick =>
    match pf.securities.get? i with
    | none => none
    | some sec =>
      let r := pfGoLong pf.core sec price time tick
      some ⟨r.1, pf.securities.set i r.2⟩
  | .enterShort i price time tick =>
    match pf.securities.get? i with
    | none => none
    | some sec =>
      let r := pfGoShort pf.core sec price time tick
      some ⟨r.1, pf.securities.set i r.2⟩
  | .exitLong i j price time =>
    match pf.securities.get? i with
    | none => none
    | some sec =>
      match sec.longPositions.get? j with
      | none => none
      | some u =>
        let r := popLongEffects pf.core sec u price time
        some ⟨r.1, pf.securities.set i
          { r.2 with longPositions := r.2.longPositions.eraseIdx j }⟩
  | .exitShort i j price time =>
    match pf.securities.get? i with
    | none => none
    | some sec =>
      match sec.shortPositions.get? j with
      | none => none
      | some u =>
        let r := popShortEffects pf.core sec u price time
        some ⟨r.1, pf.securities.set i
          { r.2 with shortPositions := r.2.shortPositions.eraseIdx j }⟩

/-- Run a sequence of unit-opening/closing operations. -/
def runOps : PF → List TradeOp → Option PF
  | pf, [] => some pf
  | pf, op :: ops =>
    match applyOp pf op with
    | none => none
    | some pf' => runOps pf' ops

/-- A minimal concrete security used to instantiate theorems. -/
def secSpecimen : SecState :=
  { name := "A", histPrices := [], lotSize := 1, marginFactor := 1, maxUnits := 4
    stopLossFactor := 1, transCost := 0, slippagePerContract := 0
    longPositions := [], shortPositions := [], equity := 0, atr := 1, unitSize := 1
    longEntryATR := 1, shortEntryATR := 1, macd := 0, prevMACD := 0, signal := 0
    prevSignal := 0 }

/-- A minimal concrete portfolio core used to instantiate theorems. -/
def coreSpecimen : PfCore :=
  { entryType := "Breakout", longAtHigh := false, longBreakout := 2, shortBreakout := 2
    addExtraUnits := "No", extraUnitATRFactor := 1, useStops := true
    adjustStopsOnMoreUnits := false, adjustStopATRFactor := 1, exitType := "Timed"
    exitLongBreakout := 5, exitShortBreakout := 5, notionalAccountSize := 1000
    adjustNotionalAccountSize := false, riskPercentOfAccount := 1
    maxPositionLimitEachWay := 12, maxMargin := 1000000, marginTotal := 0
    numLongPositions := 0, numShortPositions := 0, equity := 0, totalNetProfits := 0
    tradeBook := [] }

/-- The direction's position list. -/
def dirPositions (sec : SecState) : Dir → List TUnit
  | .long => sec.longPositions
  | .short => sec.shortPositions

/-- A concrete long unit — the value of
`mkUnit (mkTradeID "t0" "A") true 100 "t0" 0 1 2 1 1 1 "A"` (entry 100,
ATR 1, stop-loss factor 2, hence stop price 98), written out literally so
that kernel evaluation needs no rational arithmetic. -/
def unitSpecimen : TUnit :=
  { tradeID := "t0_A", long := true, price := 100, time := "t0", tickNum := 0, atr := 1
    stopLossFactor := 2, originalStopPrice := 98, stopPrice := 98, unitSize := 1
    lotSize := 1, value := 100, marginFactor := 1, marginReq := 100, secName := "A" }

/-- The specimen core with every policy string unrecognized. -/
def coreBogus : PfCore :=
  { coreSpecimen with entryType := "Foo", exitType := "Bogus", addExtraUnits := "Bogus" }

/-- The specimen security holding one open long unit. -/
def secEntered : SecState := { secSpecimen with longPositions := [unitSpecimen] }

/-- The specimen core set up for a short MACD-zero-crossover entry with
pyramiding disabled and one long position already counted. -/
def coreC6 : PfCore :=
  { coreSpecimen with entryType := "MACD-Zero Crossover", numLongPositions := 1 }

/-- The entered specimen security at a short zero-crossover tick. -/
def secC6 : SecState := { secEntered with macd := -1, prevMACD := 1 }

/-- A sequence of entry-time row writes, as the simulation performs them
(one `appendToDataFrame` per created Unit in creation order). -/
def appendEntries : Book → List (String × Row) → Book
  | b, [] => b
  | b, e :: es => appendEntries (appendBook b e.1 e.2) es

/-- An open long unit at entry price 10 (id `"ta_A"`), written literally. -/
def unitLong10 : TUnit :=
  { tradeID := "ta_A", long := true, price := 10, time := "ta", tickNum := 0, atr := 1
    stopLossFactor := 1, originalStopPrice := 9, stopPrice := 9, unitSize := 1
    lotSize := 1, value := 10, marginFactor := 1, marginReq := 10, secName := "A" }

/-- An open short unit at entry price 20 (id `"tb_A"`), written
literally. -/
def unitShort20 : TUnit :=
  { tradeID := "tb_A", long := false, price := 20, time := "tb", tickNum := 0, atr := 1
    stopLossFactor := 1, originalStopPrice := 21, stopPrice := 21, unitSize := 1
    lotSize := 1, value := 20, marginFactor := 1, marginReq := 20, secName := "A" }

/-- The specimen core with ATR pyramiding on and one open position each
way. -/
def coreC5 : PfCore :=
  { coreSpecimen with
    addExtraUnits := "Using ATR"
    numLongPositions := 1
    numShortPositions := 1 }

/-- The specimen security holding `unitLong10` and `unitShort20`. -/
def secC5 : SecState :=
  { secSpecimen with longPositions := [unitLong10], shortPositions := [unitShort20] }

/-- The specimen core in Breakout-exit mode with a long exit window of 1
tick and a short exit window of 2 ticks. -/
def coreC3 : PfCore :=
  { coreSpecimen with
    exitType := "Breakout"
    exitLongBreakout := 1
    exitShortBreakout := 2
    numShortPositions := 1 }

/-- The specimen security with prior prices `[5, 3]` and the open short
`unitShort20`. -/
def secC3 : SecState :=
  { secSpecimen with histPrices := [5, 3], shortPositions := [unitShort20] }

/-- A concrete short unit — the value of
`mkUnit (mkTradeID "tw" "A") false 95 "tw" 0 1 1 1 1 1 "A"` (entry 95,
ATR 1, stop-loss factor 1, hence stop price 96), written out literally so
that kernel evaluation needs no rational arithmetic. -/
def unitShortW : TUnit :=
  { tradeID := "tw_A", long := false, price := 95, time := "tw", tickNum := 0, atr := 1
    stopLossFactor := 1, originalStopPrice := 96, stopPrice := 96, unitSize := 1
    lotSize := 1, value := 95, marginFactor := 1, marginReq := 95, secName := "A" }

/-- The specimen security holding one open long unit (stop 98) and one
open short unit (stop 96). -/
def secStopsW : SecState :=
  { secSpecimen with longPositions := [unitSpecimen], shortPositions := [unitShortW] }

/-- Portfolio for the stop-out witness: stops enabled, one security with
one long at stop 98 and one short at stop 96; the tick price 97 stops
both out. -/
def pfStopsW : PF := ⟨coreSpecimen, [secStopsW]⟩

/-! ## Theorems -/

/-- Length of the true-range list: one less than the price series. -/
theorem trList_length (ps : List ℚ) : (trList ps).length = ps.length - 1 := by
  induction ps with
  | nil => rfl
  | cons a t ih =>
    cases t with
    | nil => rfl
    | cons b t' =>
      have h : trList (a :: b :: t') = |b - a| :: trList (b :: t') := rfl
      rw [h]
      simp only [List.length_cons]
      simp only [List.length_cons] at ih
      omega

/-- Appending one price appends one true range. -/
theorem trList_append (ps : List ℚ) (prev p : ℚ) (h : ps.getLast? = some prev) :
    trList (ps ++ [p]) = trList ps ++ [|p - prev|] := by
  induction ps with
  | nil => simp at h
  | cons a t ih =>
    cases t with
    | nil =>
      simp only [List.getLast?_singleton, Option.some.injEq] at h
      subst h
      rfl
    | cons b t' =>
      have h' : (b :: t').getLast? = some prev := by
        rw [← h]; exact (List.getLast?_cons_cons).symm
      calc trList ((a :: b :: t') ++ [p])
          = |b - a| :: trList ((b :: t') ++ [p]) := rfl
        _ = |b - a| :: (trList (b :: t') ++ [|p - prev|]) := by rw [ih h']
        _ = trList (a :: b :: t') ++ [|p - prev|] := rfl

/-- Claim C7: for a warm-up series `ps` of length at least `window + 1`
and any window `≥ 1`, extending the series by one price and re-running the
batch warm-up `computeInitialATRs` gives exactly the value obtained by one
incremental `updateATR` step from the batch value over `ps` — the
incremental step is the same recurrence as the batch loop, so the two are
exactly (hence bit-for-bit) compatible. -/
theorem atr_incremental_eq_batch (window : ℕ) (ps : List ℚ) (prev p : ℚ)
    (_hw : 1 ≤ window) (hlen : window + 1 ≤ ps.length) (hlast : ps.getLast? = some prev) :
    computeInitialATRs window (ps ++ [p]) =
      updateATR window (computeInitialATRs window ps) prev p := by
  have htr : trList (ps ++ [p]) = trList ps ++ [|p - prev|] := trList_append ps prev p hlast
  have hlen' : window ≤ (trList ps).length := by rw [trList_length]; omega
  rw [computeInitialATRs, htr, List.take_append_of_le_length hlen',
    List.drop_append_of_le_length hlen', List.foldl_append]
  rfl

/-- Witness for `atr_incremental_eq_batch` at window 1, series `[1, 2]`,
new price `4`. -/
theorem atr_incremental_eq_batch_witness :
    computeInitialATRs 1 ([1, 2] ++ [4]) =
      updateATR 1 (computeInitialATRs 1 [1, 2]) 2 4 :=
  atr_incremental_eq_batch 1 [1, 2] 2 4 (by decide) (by decide) (by decide)

/-- Claim C1: the incremental Signal does NOT refine the batch Signal.
With smoothing 2, fast EMA length 1, slow EMA length 2, signal length 1,
warm-up prices `[0, 0, 1]` and next price `2`, the incremental updater
`updateMACDStep` yields Signal `4/9` while batch-recomputing
`computeInitialMACD` over the whole series `[0, 0, 1, 2]` yields `1/3`;
moreover the batch warm-up seed is `1/6`, the mean of `signalLength + 1`
MACD values, not the spec's mean of the first `signalLength` MACD values
(`specSignalSeed`, here `0`). -/
theorem macd_signal_incremental_batch_diverge :
    (updateMACDStep 2 1 2 1 (initMACDState 2 1 2 1 [0, 0, 1]) 2).signal = 4 / 9 ∧
    (initMACDState 2 1 2 1 [0, 0, 1, 2]).signal = 1 / 3 ∧
    (updateMACDStep 2 1 2 1 (initMACDState 2 1 2 1 [0, 0, 1]) 2).signal ≠
      (initMACDState 2 1 2 1 [0, 0, 1, 2]).signal ∧
    signalSeed 2 1 2 1 [0, 0, 1] = 1 / 6 ∧
    specSignalSeed 2 1 2 1 [0, 0, 1] = 0 ∧
    signalSeed 2 1 2 1 [0, 0, 1] ≠ specSignalSeed 2 1 2 1 [0, 0, 1] := by
  have h1 : (updateMACDStep 2 1 2 1 (initMACDState 2 1 2 1 [0, 0, 1]) 2).signal = 4 / 9 := by
    norm_num [updateMACDStep, initMACDState, signalCol, signalSeed, macdCol, emaCol,
      updateEMA, mean, List.range_succ]
  have h2 : (initMACDState 2 1 2 1 [0, 0, 1, 2]).signal = 1 / 3 := by
    norm_num [initMACDState, signalCol, signalSeed, macdCol, emaCol, updateEMA, mean,
      List.range_succ]
  have h3 : signalSeed 2 1 2 1 [0, 0, 1] = 1 / 6 := by
    norm_num [signalSeed, macdCol, emaCol, updateEMA, mean, List.range_succ]
  have h4 : specSignalSeed 2 1 2 1 [0, 0, 1] = 0 := by
    norm_num [specSignalSeed, macdCol, emaCol, updateEMA, mean, List.range_succ]
  refine ⟨h1, h2, ?_, h3, h4, ?_⟩
  · rw [h1, h2]; norm_num
  · rw [h3, h4]; norm_num

/-- Replacing the security at index `i` shifts the long-count sum by the
difference of the long-list lengths. -/
theorem sumLongs_set (secs : List SecState) (i : ℕ) (sec sec' : SecState)
    (h : secs.get? i = some sec) :
    sumLongs (secs.set i sec') =
      sumLongs secs - sec.longPositions.length + sec'.longPositions.length := by
  induction secs generalizing i with
  | nil => simp at h
  | cons a t ih =>
    cases i with
    | zero =>
      simp only [List.get?] at h
      cases h
      simp [sumLongs, List.set]
      ring
    | succ n =>
      simp only [List.get?] at h
      simp [sumLongs, List.set, List.map_cons, List.sum_cons] at *
      rw [ih n h]
      ring

/-- Replacing the security at index `i` shifts the short-count sum by the
difference of the short-list lengths. -/
theorem sumShorts_set (secs : List SecState) (i : ℕ) (sec sec' : SecState)
    (h : secs.get? i = some sec) :
    sumShorts (secs.set i sec') =
      sumShorts secs - sec.shortPositions.length + sec'.shortPositions.length := by
  induction secs generalizing i with
  | nil => simp at h
  | cons a t ih =>
    cases i with
    | zero =>
      simp only [List.get?] at h
      cases h
      simp [sumShorts, List.set]
      ring
    | succ n =>
      simp only [List.get?] at h
      simp [sumShorts, List.set, List.map_cons, List.sum_cons] at *
      rw [ih n h]
      ring

/-- `goLong` bumps the long counter by one. -/
theorem pfGoLong_numLong (core : PfCore) (sec : SecState) (p : ℚ) (t : String) (k : ℕ) :
    (pfGoLong core sec p t k).1.numLongPositions = core.numLongPositions + 1 := rfl

/-- `goLong` leaves the short counter alone. -/
theorem pfGoLong_numShort (core : PfCore) (sec : SecState) (p : ℚ) (t : String) (k : ℕ) :
    (pfGoLong core sec p t k).1.numShortPositions = core.numShortPositions := rfl

/-- `Security.goLong` appends exactly one unit. -/
theorem pfGoLong_longLen (core : PfCore) (sec : SecState) (p : ℚ) (t : String) (k : ℕ) :
    (pfGoLong core sec p t k).2.longPositions.length = sec.longPositions.length + 1 := by
  simp [pfGoLong]

/-- `Security.goLong` leaves the short list alone. -/
theorem pfGoLong_shorts (core : PfCore) (sec : SecState) (p : ℚ) (t : String) (k : ℕ) :
    (pfGoLong core sec p t k).2.shortPositions = sec.shortPositions := rfl

/-- `goShort` bumps the short counter by one. -/
theorem pfGoShort_numShort (core : PfCore) (sec : SecState) (p : ℚ) (t : String) (k : ℕ) :
    (pfGoShort core sec p t k).1.numShortPositions = core.numShortPositions + 1 := rfl

/-- `goShort` leaves the long counter alone. -/
theorem pfGoShort_numLong (core : PfCore) (sec : SecState) (p : ℚ) (t : String) (k : ℕ) :
    (pfGoShort core sec p t k).1.numLongPositions = core.numLongPositions := rfl

/-- `Security.goShort` appends exactly one unit. -/
theorem pfGoShort_shortLen (core : PfCore) (sec : SecState) (p : ℚ) (t : String) (k : ℕ) :
    (pfGoShort core sec p t k).2.shortPositions.length = sec.shortPositions.length + 1 := by
  simp [pfGoShort]

/-- `Security.goShort` leaves the long list alone. -/
theorem pfGoShort_longs (core : PfCore) (sec : SecState) (p : ℚ) (t : String) (k : ℕ) :
    (pfGoShort core sec p t k).2.longPositions = sec.longPositions := rfl

/-- `popLong` decrements the long counter. -/
theorem popLongEffects_numLong (core : PfCore) (sec : SecState) (u : TUnit) (p : ℚ)
    (t : String) :
    (popLongEffects core sec u p t).1.numLongPositions = core.numLongPositions - 1 := rfl

/-- `popLong` leaves the short counter alone. -/
theorem popLongEffects_numShort (core : PfCore) (sec : SecState) (u : TUnit) (p : ℚ)
    (t : String) :
    (popLongEffects core sec u p t).1.numShortPositions = core.numShortPositions := rfl

/-- `popLongEffects` itself does not touch the position lists. -/
theorem popLongEffects_lists (core : PfCore) (sec : SecState) (u : TUnit) (p : ℚ)
    (t : String) :
    (popLongEffects core sec u p t).2.longPositions = sec.longPositions ∧
      (popLongEffects core sec u p t).2.shortPositions = sec.shortPositions := ⟨rfl, rfl⟩

/-- `popShort` decrements the short counter. -/
theorem popShortEffects_numShort (core : PfCore) (sec : SecState) (u : TUnit) (p : ℚ)
    (t : String) :
    (popShortEffects core sec u p t).1.numShortPositions = core.numShortPositions - 1 := rfl

/-- `popShort` leaves the long counter alone. -/
theorem popShortEffects_numLong (core : PfCore) (sec : SecState) (u : TUnit) (p : ℚ)
    (t : String) :
    (popShortEffects core sec u p t).1.numLongPositions = core.numLongPositions := rfl

/-- `popShortEffects` itself does not touch the position lists. -/
theorem popShortEffects_lists (core : PfCore) (sec : SecState) (u : TUnit) (p : ℚ)
    (t : String) :
    (popShortEffects core sec u p t).2.longPositions = sec.longPositions ∧
      (popShortEffects core sec u p t).2.shortPositions = sec.shortPositions := ⟨rfl, rfl⟩

/-- Every unit-opening/closing operation preserves the position-count
invariant. -/
theorem applyOp_preserves (pf pf' : PF) (op : TradeOp)
    (h : applyOp pf op = some pf') (hinv : countInvB pf = true) : countInvB pf' = true := by
  simp only [countInvB, Bool.and_eq_true, decide_eq_true_eq] at hinv ⊢
  obtain ⟨hL, hS⟩ := hinv
  cases op with
  | enterLong i price time tick =>
    simp only [applyOp] at h
    cases hg : pf.securities.get? i with
    | none => rw [hg] at h; exact absurd h (by simp)
    | some sec =>
      rw [hg] at h
      simp only [Option.some.injEq] at h
      subst h
      refine ⟨?_, ?_⟩
      · rw [pfGoLong_numLong, sumLongs_set pf.securities i sec _ hg, pfGoLong_longLen]
        push_cast
        omega
      · rw [pfGoLong_numShort, sumShorts_set pf.securities i sec _ hg, pfGoLong_shorts]
        omega
  | enterShort i price time tick =>
    simp only [applyOp] at h
    cases hg : pf.securities.get? i with
    | none => rw [hg] at h; exact absurd h (by simp)
    | some sec =>
      rw [hg] at h
      simp only [Option.some.injEq] at h
      subst h
      refine ⟨?_, ?_⟩
      · rw [pfGoShort_numLong, sumLongs_set pf.securities i sec _ hg, pfGoShort_longs]
        omega
      · rw [pfGoShort_numShort, sumShorts_set pf.securities i sec _ hg, pfGoShort_shortLen]
        push_cast
        omega
  | exitLong i j price time =>
    simp only [applyOp] at h
    cases hg : pf.securities.get? i with
    | none => rw [hg] at h; exact absurd h (by simp)
    | some sec =>
      rw [hg] at h
      dsimp only at h
      cases hu : sec.longPositions.get? j with
      | none => rw [hu] at h; exact absurd h (by simp)
      | some u =>
        rw [hu] at h
        simp only [Option.some.injEq] at h
        subst h
        have hj : j < sec.longPositions.length := by
          have := List.get?_eq_some.mp hu
          exact this.1
        refine ⟨?_, ?_⟩
        · rw [popLongEffects_numLong, sumLongs_set pf.securities i sec _ hg]
          have hlen : ((popLongEffects pf.core sec u price time).2.longPositions.eraseIdx
              j).length = sec.longPositions.length - 1 := by
            rw [(popLongEffects_lists pf.core sec u price time).1]
            exact List.length_eraseIdx_of_lt hj
          simp only [hlen]
          omega
        · rw [popLongEffects_numShort, sumShorts_set pf.securities i sec _ hg,
            (popLongEffects_lists pf.core sec u price time).2]
          omega
  | exitShort i j price time =>
    simp only [applyOp] at h
    cases hg : pf.securities.get? i with
    | none => rw [hg] at h; exact absurd h (by simp)
    | some sec =>
      rw [hg] at h
      dsimp only at h
      cases hu : sec.shortPositions.get? j with
      | none => rw [hu] at h; exact absurd h (by simp)
      | some u =>
        rw [hu] at h
        simp only [Option.some.injEq] at h
        subst h
        have hj : j < sec.shortPositions.length := by
          have := List.get?_eq_some.mp hu
          exact this.1
        refine ⟨?_, ?_⟩
        · rw [popShortEffects_numLong, sumLongs_set pf.securities i sec _ hg,
            (popShortEffects_lists pf.core sec u price time).1]
          omega
        · rw [popShortEffects_numShort, sumShorts_set pf.securities i sec _ hg]
          have hlen : ((popShortEffects pf.core sec u price time).2.shortPositions.eraseIdx
              j).length = sec.shortPositions.length - 1 := by
            rw [(popShortEffects_lists pf.core sec u price time).2]
            exact List.length_eraseIdx_of_lt hj
          simp only [hlen]
          omega

/-- Claim C8: from any state satisfying the position-count invariant,
every sequence of unit-opening/closing operations
(`goLong`/`goShort`/`popLong`/`popShort`) preserves
`numLongPositions = Σ len(longPositions)` and
`numShortPositions = Σ len(shortPositions)`; and whenever the invariant is
violated, `Portfolio.getQuickSummary` aborts with the
`RuntimeError("Doesn\x27t match")` rather than returning a status. -/
theorem position_count_invariant (pf : PF) (ops : List TradeOp)
    (hinv : countInvB pf = true) :
    ((runOps pf ops).all countInvB = true) ∧
      (∀ q : PF, countInvB q = false → getQuickSummaryE q = .error "Doesn\x27t match") := by
  constructor
  · induction ops generalizing pf with
    | nil => simpa [runOps]
    | cons op ops ih =>
      simp only [runOps]
      cases h : applyOp pf op with
      | none => simp [Option.all]
      | some pf2 => exact ih pf2 (applyOp_preserves pf pf2 op h hinv)
  · intro q hq
    simp [getQuickSummaryE, hq]

/-- Witness for `position_count_invariant`: one security, one long entry
followed by its closure. -/
theorem position_count_invariant_witness :
    ((runOps ⟨coreSpecimen, [secSpecimen]⟩
        [TradeOp.enterLong 0 10 "t0" 0, TradeOp.exitLong 0 0 11 "t1"]).all countInvB
      = true) ∧
      (∀ q : PF, countInvB q = false → getQuickSummaryE q = .error "Doesn\x27t match") :=
  position_count_invariant ⟨coreSpecimen, [secSpecimen]⟩
    [TradeOp.enterLong 0 10 "t0" 0, TradeOp.exitLong 0 0 11 "t1"] (by decide)

/-- Claim C10: in exact rational arithmetic the two slippage-adjusted
transaction-cost legs of `Security.getPopStats` sum to
`transCost·(sellPrice+buyPrice)·lotSize·unitSize` — the slippage
adjustments cancel — and `netProfit = grossProfit − slippageCost −` that
amount. -/
theorem transaction_cost_slippage_cancels (sec : SecState) (sellPrice buyPrice : ℚ)
    (unitSize : ℤ) :
    (getPopStats sec sellPrice buyPrice unitSize).transCost =
      sec.transCost * (sellPrice + buyPrice) * sec.lotSize * (unitSize : ℚ) ∧
    (getPopStats sec sellPrice buyPrice unitSize).netProfit =
      (getPopStats sec sellPrice buyPrice unitSize).grossProfit -
        (getPopStats sec sellPrice buyPrice unitSize).slippageCost -
        sec.transCost * (sellPrice + buyPrice) * sec.lotSize * (unitSize : ℚ) := by
  constructor <;> (simp only [getPopStats]; ring)

/-- Claim C9: `updateUnitSize` computes
`floor(risk%/100·notional/(ATR·lotSize))` clamped below at 0 (python
`int()` truncation agrees with `floor` after the clamp), and the unit
actually created by `goLong` has size
`min(unitSize, floor(maxMargin/(marginFactor·price·lotSize)))`. -/
theorem unit_sizing_formula (core : PfCore) (sec : SecState) (price : ℚ) (time : String)
    (tick : ℕ) (_hatr : 0 < sec.atr) (hlot : 0 < sec.lotSize) (hprice : 0 < price)
    (hmf : 0 < sec.marginFactor) (hmm : 0 ≤ core.maxMargin) :
    (updateUnitSize core sec).unitSize =
      max 0 ⌊(core.riskPercentOfAccount / 100 * core.notionalAccountSize) /
        (sec.atr * sec.lotSize)⌋ ∧
    ∃ u : TUnit,
      (pfGoLong core sec price time tick).2.longPositions = sec.longPositions ++ [u] ∧
      u.unitSize = min sec.unitSize
        ⌊core.maxMargin / (sec.marginFactor * price * sec.lotSize)⌋ := by
  constructor
  · show (let raw := pyInt ((core.riskPercentOfAccount / 100 * core.notionalAccountSize) /
        (sec.atr * sec.lotSize)); if raw < 0 then 0 else raw) = _
    set x := (core.riskPercentOfAccount / 100 * core.notionalAccountSize) /
      (sec.atr * sec.lotSize) with hxdef
    by_cases hx : 0 ≤ x
    · have hfl : (0 : ℤ) ≤ ⌊x⌋ := Int.floor_nonneg.mpr hx
      simp only [pyInt, if_pos hx]
      omega
    · push_neg at hx
      have hceil : ⌈x⌉ ≤ 0 := Int.ceil_le.mpr (by exact_mod_cast hx.le)
      have hfl : ⌊x⌋ < 0 := by
        have h1 : (⌊x⌋ : ℚ) ≤ x := Int.floor_le x
        have h2 : (⌊x⌋ : ℚ) < 0 := lt_of_le_of_lt h1 hx
        exact_mod_cast h2
      simp only [pyInt, if_neg (not_le.mpr hx)]
      omega
  · refine ⟨_, rfl, ?_⟩
    show (if sec.unitSize > pyInt (core.maxMargin / (sec.marginFactor * price * sec.lotSize))
        then pyInt (core.maxMargin / (sec.marginFactor * price * sec.lotSize))
        else sec.unitSize) =
      min sec.unitSize ⌊core.maxMargin / (sec.marginFactor * price * sec.lotSize)⌋
    have hq0 : 0 ≤ core.maxMargin / (sec.marginFactor * price * sec.lotSize) :=
      div_nonneg hmm (by positivity)
    rw [pyInt, if_pos hq0]
    split <;> omega

/-- Witness for `unit_sizing_formula` at the specimen configuration and
price 10. -/
theorem unit_sizing_formula_witness :
    (updateUnitSize coreSpecimen secSpecimen).unitSize =
      max 0 ⌊(coreSpecimen.riskPercentOfAccount / 100 * coreSpecimen.notionalAccountSize) /
        (secSpecimen.atr * secSpecimen.lotSize)⌋ ∧
    ∃ u : TUnit,
      (pfGoLong coreSpecimen secSpecimen 10 "t0" 0).2.longPositions =
        secSpecimen.longPositions ++ [u] ∧
      u.unitSize = min secSpecimen.unitSize
        ⌊coreSpecimen.maxMargin / (secSpecimen.marginFactor * 10 * secSpecimen.lotSize)⌋ :=
  unit_sizing_formula coreSpecimen secSpecimen 10 "t0" 0 (by norm_num [secSpecimen])
    (by norm_num [secSpecimen]) (by norm_num) (by norm_num [secSpecimen])
    (by norm_num [coreSpecimen])

/-- `Security.goLong` appends one new unit at the back. -/
theorem pfGoLong_append (core : PfCore) (sec : SecState) (p : ℚ) (t : String) (k : ℕ) :
    ∃ u : TUnit, (pfGoLong core sec p t k).2.longPositions = sec.longPositions ++ [u] :=
  ⟨_, rfl⟩

/-- `Security.goShort` appends one new unit at the back. -/
theorem pfGoShort_append (core : PfCore) (sec : SecState) (p : ℚ) (t : String) (k : ℕ) :
    ∃ u : TUnit, (pfGoShort core sec p t k).2.shortPositions = sec.shortPositions ++ [u] :=
  ⟨_, rfl⟩

/-- Claim C2, counterexample: with the unrecognized entry type `"Foo"` the
first entry evaluation raises nothing and silently creates units — one
long and one short — so the run returns `ok` with 2 units added. -/
theorem entry_type_unrecognized_creates_unit_cex :
    ((checkEntries ⟨{ coreSpecimen with entryType := "Foo" }, [secSpecimen]⟩
        [10] "t0" 0).toOption.map
      (fun p => (p.2, p.1.securities.map (fun s =>
        (s.longPositions.length, s.shortPositions.length))))) =
      some (2, [(1, 1)]) := by
  norm_num [checkEntries, addUnits, addUnitsLoop, addUnitsStep, checkToAddNewUnit,
    entryPriceCondition, strIn, listSub, listPre, updateUnitSize, pyInt, pfGoLong, pfGoShort,
    mkUnit, appendBook, bookHasKey, entryRow, mkTradeID, secSpecimen, coreSpecimen,
    checkToAddMoreUnits, Except.toOption]

/-- Claim C2, amended: an `entryType` that names none of the recognized
entry families (and carries neither modifier substring) does NOT raise:
the entry price condition defaults to true, so `checkToAddNewUnit` creates
a Unit at the first entry evaluation where capacity permits.  Unrecognized
`exitType` and `addExtraUnits` values, by contrast, do raise their
`RuntimeError`s at first use. -/
theorem entry_type_fallthrough (core : PfCore) (sec : SecState) (currPrice : ℚ)
    (time : String) (tickNum : ℕ) (dir : Dir)
    (h1 : strIn "Breakout" core.entryType = false)
    (h2 : strIn "MACD-Signal Crossover" core.entryType = false)
    (h3 : strIn "MACD-Zero Crossover" core.entryType = false)
    (h4 : strIn "Polarity Condition" core.entryType = false)
    (hexit : core.exitType ≠ "Timed" ∧ core.exitType ≠ "Breakout" ∧
      core.exitType ≠ "MACD-Signal Crossover")
    (hextra : core.addExtraUnits ≠ "As new unit" ∧ core.addExtraUnits ≠ "Using ATR" ∧
      core.addExtraUnits ≠ "No")
    (hentered : sec.longPositions ≠ [])
    (hseccap : sec.longPositions.length + sec.shortPositions.length < sec.maxUnits)
    (hpfcap : core.numLongPositions < (core.maxPositionLimitEachWay : ℤ)) :
    ((checkToAddNewUnit core sec currPrice time tickNum dir core.entryType).1 = true) ∧
    (∃ u : TUnit,
      dirPositions (checkToAddNewUnit core sec currPrice time tickNum dir
        core.entryType).2.2 dir = dirPositions sec dir ++ [u]) ∧
    (∀ prices tm tk, checkExits ⟨core, [sec]⟩ prices tm tk =
      .error "Portfolio attribute exitType is neither Timed nor Breakout.") ∧
    (addUnitsStep core sec currPrice time tickNum Dir.long =
      .error "Invalid type for Portfolio attribute addExtraUnits") := by
  have hcond : entryPriceCondition core sec currPrice dir core.entryType = true := by
    cases dir <;> simp [entryPriceCondition, h1, h2, h3, h4]
  refine ⟨?_, ?_, ?_, ?_⟩
  · simp [checkToAddNewUnit, hcond]
  · cases dir
    · simp only [checkToAddNewUnit, hcond, if_true, dirPositions]
      exact pfGoLong_append _ _ _ _ _
    · simp only [checkToAddNewUnit, hcond, if_true, dirPositions]
      exact pfGoShort_append _ _ _ _ _
  · intro prices tm tk
    simp [checkExits, hexit.1, hexit.2.1, hexit.2.2]
  · have hne : sec.longPositions.isEmpty = false := by
      cases hpos : sec.longPositions with
      | nil => exact absurd hpos hentered
      | cons a l => rfl
    simp [addUnitsStep, hne, hextra.1, hextra.2.1, hextra.2.2,
      Nat.not_le.mpr hseccap, Int.not_le.mpr hpfcap]

/-- Witness for `entry_type_fallthrough`: entry type `"Foo"`, exit type
and pyramiding policy `"Bogus"`, one open long unit. -/
theorem entry_type_fallthrough_witness :
    ((checkToAddNewUnit coreBogus secEntered 10 "t0" 0 Dir.long
      coreBogus.entryType).1 = true) ∧
    (∃ u : TUnit,
      dirPositions (checkToAddNewUnit coreBogus secEntered 10 "t0" 0 Dir.long
        coreBogus.entryType).2.2 Dir.long = dirPositions secEntered Dir.long ++ [u]) ∧
    (∀ prices tm tk, checkExits ⟨coreBogus, [secEntered]⟩ prices tm tk =
      .error "Portfolio attribute exitType is neither Timed nor Breakout.") ∧
    (addUnitsStep coreBogus secEntered 10 "t0" 0 Dir.long =
      .error "Invalid type for Portfolio attribute addExtraUnits") :=
  entry_type_fallthrough coreBogus secEntered 10 "t0" 0 Dir.long
    (by decide) (by decide) (by decide) (by decide)
    ⟨by decide, by decide, by decide⟩ ⟨by decide, by decide, by decide⟩
    (by decide) (by decide) (by decide)

/-- `checkToAddNewUnit` never changes the pyramiding policy string. -/
theorem checkToAddNewUnit_core_addExtra (core : PfCore) (sec : SecState) (cp : ℚ)
    (t : String) (k : ℕ) (dir : Dir) (et : String) :
    (checkToAddNewUnit core sec cp t k dir et).2.1.addExtraUnits = core.addExtraUnits := by
  rw [checkToAddNewUnit]
  split
  · cases dir <;> rfl
  · rfl

/-- `checkToAddMoreUnits` never changes the pyramiding policy string. -/
theorem checkToAddMoreUnits_core_addExtra (core : PfCore) (sec : SecState) (cp : ℚ)
    (t : String) (k : ℕ) (dir : Dir) :
    (checkToAddMoreUnits core sec cp t k dir).2.1.addExtraUnits = core.addExtraUnits := by
  cases dir with
  | long =>
    rw [checkToAddMoreUnits]
    cases sec.longPositions.getLast? with
    | none => rfl
    | some latest =>
      dsimp only
      split
      · rfl
      · rfl
  | short =>
    rw [checkToAddMoreUnits]
    cases sec.shortPositions.getLast? with
    | none => rfl
    | some latest =>
      dsimp only
      split
      · rfl
      · rfl

/-- The short-direction `checkToAddNewUnit` never touches the long list. -/
theorem checkToAddNewUnit_short_longs (core : PfCore) (sec : SecState) (cp : ℚ)
    (t : String) (k : ℕ) (et : String) :
    (checkToAddNewUnit core sec cp t k Dir.short et).2.2.longPositions =
      sec.longPositions := by
  rw [checkToAddNewUnit]
  split
  · rfl
  · rfl

/-- The short-direction `checkToAddMoreUnits` never touches the long
list. -/
theorem checkToAddMoreUnits_short_longs (core : PfCore) (sec : SecState) (cp : ℚ)
    (t : String) (k : ℕ) :
    (checkToAddMoreUnits core sec cp t k Dir.short).2.2.longPositions =
      sec.longPositions := by
  rw [checkToAddMoreUnits]
  cases sec.shortPositions.getLast? with
  | none => rfl
  | some latest =>
    dsimp only
    split
    · split <;> rfl
    · rfl

/-- With `addExtraUnits = "No"`, the `addUnits` body leaves a security
that already holds a long unit completely unchanged in the long pass. -/
theorem addUnitsStep_no_entered (core : PfCore) (sec : SecState) (cp : ℚ) (t : String)
    (k : ℕ) (hNo : core.addExtraUnits = "No") (hent : sec.longPositions ≠ []) :
    addUnitsStep core sec cp t k Dir.long = .ok (core, sec, 0) := by
  have hne : sec.longPositions.isEmpty = false := by
    cases hpos : sec.longPositions with
    | nil => exact absurd hpos hent
    | cons a l => rfl
  rw [addUnitsStep]
  split
  · rfl
  · simp +decide [hne, hNo]

/-- Any successful `addUnits` body run preserves the pyramiding policy
string on the threaded core. -/
theorem addUnitsStep_core_addExtra (core : PfCore) (sec : SecState) (cp : ℚ) (t : String)
    (k : ℕ) (dir : Dir) (c1 : PfCore) (s1 : SecState) (m : ℕ)
    (h : addUnitsStep core sec cp t k dir = .ok (c1, s1, m)) :
    c1.addExtraUnits = core.addExtraUnits := by
  cases dir <;>
  · rw [addUnitsStep] at h
    split at h
    · simp only [Except.ok.injEq, Prod.mk.injEq] at h
      rw [← h.1]
    · split at h
      · simp only [Except.ok.injEq, Prod.mk.injEq] at h
        rw [← h.1]
        exact checkToAddNewUnit_core_addExtra core sec cp t k _ core.entryType
      · split at h
        · simp only [Except.ok.injEq, Prod.mk.injEq] at h
          rw [← h.1]
          exact checkToAddNewUnit_core_addExtra core sec cp t k _ core.entryType
        · split at h
          · simp only [Except.ok.injEq, Prod.mk.injEq] at h
            rw [← h.1]
            exact checkToAddMoreUnits_core_addExtra core sec cp t k _
          · split at h
            · simp only [Except.ok.injEq, Prod.mk.injEq] at h
              rw [← h.1]
            · exact absurd h (by simp)

/-- Any successful short-direction `addUnits` body run preserves the
security's long list. -/
theorem addUnitsStep_short_longs (core : PfCore) (sec : SecState) (cp : ℚ) (t : String)
    (k : ℕ) (c1 : PfCore) (s1 : SecState) (m : ℕ)
    (h : addUnitsStep core sec cp t k Dir.short = .ok (c1, s1, m)) :
    s1.longPositions = sec.longPositions := by
  rw [addUnitsStep] at h
  split at h
  · simp only [Except.ok.injEq, Prod.mk.injEq] at h
    rw [← h.2.1]
  · split at h
    · simp only [Except.ok.injEq, Prod.mk.injEq] at h
      rw [← h.2.1]
      exact checkToAddNewUnit_short_longs core sec cp t k core.entryType
    · split at h
      · simp only [Except.ok.injEq, Prod.mk.injEq] at h
        rw [← h.2.1]
        exact checkToAddNewUnit_short_longs core sec cp t k core.entryType
      · split at h
        · simp only [Except.ok.injEq, Prod.mk.injEq] at h
          rw [← h.2.1]
          exact checkToAddMoreUnits_short_longs core sec cp t k
        · split at h
          · simp only [Except.ok.injEq, Prod.mk.injEq] at h
            rw [← h.2.1]
          · exact absurd h (by simp)

/-- Aligned indexing into a zip, forward direction. -/
theorem zip_get?_some {α β : Type} (as : List α) (bs : List β) (i : ℕ) (a : α) (b : β)
    (ha : as.get? i = some a) (hb : bs.get? i = some b) :
    (as.zip bs).get? i = some (a, b) := by
  induction as generalizing bs i with
  | nil => simp at ha
  | cons x xs ih =>
    cases bs with
    | nil => simp at hb
    | cons y ys =>
      cases i with
      | zero =>
        simp only [List.get?] at ha hb
        cases ha; cases hb; rfl
      | succ j =>
        simp only [List.get?] at ha hb ⊢
        exact ih ys j ha hb

/-- In the long pass with pyramiding `"No"`, every security that already
holds a long unit comes out of the `addUnits` loop exactly unchanged. -/
theorem addUnitsLoop_no_entered_get (time : String) (tickNum : ℕ)
    (pairs : List (SecState × ℚ)) :
    ∀ (core core' : PfCore) (secs' : List SecState) (n : ℕ),
    core.addExtraUnits = "No" →
    addUnitsLoop time tickNum Dir.long core pairs = .ok (core', secs', n) →
    ∀ i sec cp, pairs.get? i = some (sec, cp) → sec.longPositions ≠ [] →
      secs'.get? i = some sec := by
  induction pairs with
  | nil =>
    intro core core' secs' n hNo hrun i sec cp hget hent
    simp at hget
  | cons hd rest ih =>
    intro core core' secs' n hNo hrun i sec cp hget hent
    obtain ⟨sec0, cp0⟩ := hd
    rw [addUnitsLoop] at hrun
    cases hstep : addUnitsStep core sec0 cp0 time tickNum Dir.long with
    | error e => rw [hstep] at hrun; exact absurd hrun (by simp)
    | ok triple =>
      obtain ⟨c1, s1, m⟩ := triple
      rw [hstep] at hrun
      dsimp only at hrun
      cases hloop : addUnitsLoop time tickNum Dir.long c1 rest with
      | error e => rw [hloop] at hrun; exact absurd hrun (by simp)
      | ok t2 =>
        obtain ⟨c2, secs2, n2⟩ := t2
        rw [hloop] at hrun
        simp only [Except.ok.injEq, Prod.mk.injEq] at hrun
        obtain ⟨hc2, hsecs, hn⟩ := hrun
        subst hsecs
        cases i with
        | zero =>
          simp only [List.get?] at hget
          cases hget
          have heq := addUnitsStep_no_entered core sec cp time tickNum hNo hent
          rw [heq] at hstep
          simp only [Except.ok.injEq, Prod.mk.injEq] at hstep
          simp [List.get?, hstep.2.1]
        | succ j =>
          simp only [List.get?] at hget ⊢
          have hNo1 : c1.addExtraUnits = "No" := by
            rw [addUnitsStep_core_addExtra core sec0 cp0 time tickNum Dir.long c1 s1 m hstep]
            exact hNo
          exact ih c1 c2 secs2 n2 hNo1 hloop j sec cp hget hent

/-- The short pass of the `addUnits` loop never touches any security's
long list. -/
theorem addUnitsLoop_short_longs (time : String) (tickNum : ℕ)
    (pairs : List (SecState × ℚ)) :
    ∀ (core core' : PfCore) (secs' : List SecState) (n : ℕ),
    addUnitsLoop time tickNum Dir.short core pairs = .ok (core', secs', n) →
    ∀ i sec cp, pairs.get? i = some (sec, cp) →
      ∃ sec2, secs'.get? i = some sec2 ∧ sec2.longPositions = sec.longPositions := by
  induction pairs with
  | nil =>
    intro core core' secs' n hrun i sec cp hget
    simp at hget
  | cons hd rest ih =>
    intro core core' secs' n hrun i sec cp hget
    obtain ⟨sec0, cp0⟩ := hd
    rw [addUnitsLoop] at hrun
    cases hstep : addUnitsStep core sec0 cp0 time tickNum Dir.short with
    | error e => rw [hstep] at hrun; exact absurd hrun (by simp)
    | ok triple =>
      obtain ⟨c1, s1, m⟩ := triple
      rw [hstep] at hrun
      dsimp only at hrun
      cases hloop : addUnitsLoop time tickNum Dir.short c1 rest with
      | error e => rw [hloop] at hrun; exact absurd hrun (by simp)
      | ok t2 =>
        obtain ⟨c2, secs2, n2⟩ := t2
        rw [hloop] at hrun
        simp only [Except.ok.injEq, Prod.mk.injEq] at hrun
        obtain ⟨hc2, hsecs, hn⟩ := hrun
        subst hsecs
        cases i with
        | zero =>
          simp only [List.get?] at hget
          cases hget
          refine ⟨s1, by simp [List.get?], ?_⟩
          exact addUnitsStep_short_longs core sec cp time tickNum c1 s1 m hstep
        | succ j =>
          simp only [List.get?] at hget ⊢
          exact ih c1 c2 secs2 n2 hloop j sec cp hget

/-- Claim C6, amended: with `addExtraUnits = "No"`, a Security already
holding an open long Unit acquires no further long Unit through
`checkEntries` — its long-position list is exactly preserved (the short
pass may still open an opposite-direction Unit, so the TOTAL count can
grow). -/
theorem no_pyramiding_keeps_long_list (pf : PF) (prices : List ℚ) (time : String)
    (tickNum : ℕ) (pf' : PF) (n : ℕ)
    (hNo : pf.core.addExtraUnits = "No")
    (hrun : checkEntries pf prices time tickNum = .ok (pf', n)) :
    ∀ i sec cp, pf.securities.get? i = some sec → prices.get? i = some cp →
      sec.longPositions ≠ [] →
      ∃ sec2, pf'.securities.get? i = some sec2 ∧
        sec2.longPositions = sec.longPositions := by
  intro i sec cp hsec hcp hent
  rw [checkEntries] at hrun
  cases hlong : addUnits pf prices time tickNum Dir.long with
  | error e => rw [hlong] at hrun; exact absurd hrun (by simp)
  | ok p1 =>
    obtain ⟨pf1, n1⟩ := p1
    rw [hlong] at hrun
    dsimp only at hrun
    cases hshort : addUnits pf1 prices time tickNum Dir.short with
    | error e => rw [hshort] at hrun; exact absurd hrun (by simp)
    | ok p2 =>
      obtain ⟨pf2, n2⟩ := p2
      rw [hshort] at hrun
      simp only [Except.ok.injEq, Prod.mk.injEq] at hrun
      obtain ⟨hpf, hn⟩ := hrun
      subst hpf
      rw [addUnits] at hlong
      cases hl : addUnitsLoop time tickNum Dir.long pf.core (pf.securities.zip prices) with
      | error e => rw [hl] at hlong; exact absurd hlong (by simp)
      | ok t1 =>
        obtain ⟨c1, secs1, m1⟩ := t1
        rw [hl] at hlong
        simp only [Except.ok.injEq, Prod.mk.injEq] at hlong
        obtain ⟨hpf1, hn1⟩ := hlong
        have hsec1 : secs1.get? i = some sec :=
          addUnitsLoop_no_entered_get time tickNum (pf.securities.zip prices)
            pf.core c1 secs1 m1 hNo hl i sec cp (zip_get?_some _ _ i sec cp hsec hcp) hent
        rw [addUnits] at hshort
        have hzip1 : (pf1.securities.zip prices).get? i = some (sec, cp) := by
          rw [← hpf1]
          exact zip_get?_some _ _ i sec cp hsec1 hcp
        cases hs : addUnitsLoop time tickNum Dir.short pf1.core (pf1.securities.zip prices) with
        | error e => rw [hs] at hshort; exact absurd hshort (by simp)
        | ok t2 =>
          obtain ⟨c2, secs2, m2⟩ := t2
          rw [hs] at hshort
          simp only [Except.ok.injEq, Prod.mk.injEq] at hshort
          obtain ⟨hpf2, hn2⟩ := hshort
          obtain ⟨sec2, hget2, hlongs2⟩ :=
            addUnitsLoop_short_longs time tickNum (pf1.securities.zip prices)
              pf1.core c2 secs2 m2 hs i sec cp hzip1
          refine ⟨sec2, ?_, hlongs2⟩
          rw [← hpf2]
          exact hget2

/-- Claim C6, counterexample: with `addExtraUnits = "No"` and one open
long Unit, a short trigger still opens a SHORT Unit for the same
Security, so its total count of open Units rises from one to two. -/
theorem no_pyramiding_total_count_cex :
    ((checkEntries ⟨coreC6, [secC6]⟩ [10] "t1" 1).toOption.map
      (fun p => p.1.securities.map (fun s =>
        (s.longPositions.length, s.shortPositions.length)))) = some [(1, 1)] := by
  norm_num +decide [checkEntries, addUnits, addUnitsLoop, addUnitsStep, checkToAddNewUnit,
    entryPriceCondition, strIn, listSub, listPre, updateUnitSize, pyInt, pfGoShort,
    mkUnit, appendBook, bookHasKey, entryRow, mkTradeID, secC6, secEntered, unitSpecimen,
    secSpecimen, coreC6, coreSpecimen, Except.toOption]

/-- Witness for `no_pyramiding_keeps_long_list` at the specimen portfolio
with one entered security and no triggering price. -/
theorem no_pyramiding_keeps_long_list_witness :
    ∃ sec2, (⟨coreSpecimen, [secEntered]⟩ : PF).securities.get? 0 = some sec2 ∧
      sec2.longPositions = secEntered.longPositions :=
  no_pyramiding_keeps_long_list ⟨coreSpecimen, [secEntered]⟩ [10] "t1" 1
    ⟨coreSpecimen, [secEntered]⟩ 0 (by decide) rfl 0 secEntered 10
    rfl rfl (by decide)

/-- Key membership distributes over appending one row. -/
theorem bookHasKey_append (b : Book) (e : String × Row) (id : String) :
    bookHasKey (b ++ [e]) id = (bookHasKey b id || (e.1 == id)) := by
  simp [bookHasKey]

/-- A label that is absent labels no row. -/
theorem countKey_of_hasKey_false (b : Book) (id : String) (h : bookHasKey b id = false) :
    countKey b id = 0 := by
  induction b with
  | nil => rfl
  | cons kv t ih =>
    simp only [bookHasKey, List.any_cons, Bool.or_eq_false_iff] at h
    simp only [countKey, List.filter_cons, h.1, cond_false]
    exact ih (by simpa [bookHasKey] using h.2)

/-- Counting a label after appending one row. -/
theorem countKey_append_single (b : Book) (id0 : String) (r : Row) (id : String) :
    countKey (b ++ [(id0, r)]) id =
      countKey b id + (if id0 == id then 1 else 0) := by
  simp only [countKey, List.filter_append]
  cases h : (id0 == id) <;> simp [List.filter_cons, h]

/-- `df.loc[id] = row` on a fresh label is a plain append. -/
theorem appendBook_fresh (b : Book) (id : String) (r : Row)
    (h : bookHasKey b id = false) : appendBook b id r = b ++ [(id, r)] := by
  rw [appendBook]
  simp [h]

/-- Overwriting the rows at one label preserves every label. -/
theorem map_overwrite_keys (b : Book) (id : String) (g : String × Row → Row) :
    (b.map (fun kv => if kv.1 == id then (kv.1, g kv) else kv)).map Prod.fst =
      b.map Prod.fst := by
  induction b with
  | nil => rfl
  | cons kv t ih =>
    simp only [List.map_cons]
    rw [ih]
    congr 1
    split <;> rfl

/-- Unfolding `countKey` over a cons. -/
theorem countKey_cons (kv : String × Row) (t : Book) (id : String) :
    countKey (kv :: t) id = (if (kv.1 == id) = true then 1 else 0) + countKey t id := by
  simp only [countKey, List.filter_cons]
  cases h : (kv.1 == id) with
  | false => simp [h]
  | true => simp [h, Nat.add_comm]

/-- Unfolding `lookupBook` over a cons. -/
theorem lookupBook_cons (kv : String × Row) (t : Book) (id : String) :
    lookupBook (kv :: t) id =
      if (kv.1 == id) = true then some kv.2 else lookupBook t id := by
  simp only [lookupBook, List.find?]
  cases h : (kv.1 == id) <;> simp [h]

/-- Label counts are untouched by overwriting rows in place. -/
theorem countKey_map_overwrite (b : Book) (id : String) (g : String × Row → Row)
    (id' : String) :
    countKey (b.map (fun kv => if kv.1 == id then (kv.1, g kv) else kv)) id' =
      countKey b id' := by
  induction b with
  | nil => rfl
  | cons kv t ih =>
    simp only [List.map_cons, countKey_cons]
    rw [ih]
    congr 1
    split <;> rfl

/-- Appending a row with a different label preserves a label's count. -/
theorem countKey_appendBook_ne (b : Book) (id0 : String) (r : Row) (id : String)
    (hne : (id0 == id) = false) :
    countKey (appendBook b id0 r) id = countKey b id := by
  rw [appendBook]
  split
  · exact countKey_map_overwrite b id0 (fun _ => r) id
  · rw [countKey_append_single, hne]
    simp

/-- Looking up one label after overwriting the rows at another. -/
theorem lookupBook_map_overwrite_ne (b : Book) (id : String) (g : String × Row → Row)
    (id' : String) (hne : (id == id') = false) :
    lookupBook (b.map (fun kv => if kv.1 == id then (kv.1, g kv) else kv)) id' =
      lookupBook b id' := by
  induction b with
  | nil => rfl
  | cons kv t ih =>
    simp only [List.map_cons, lookupBook_cons]
    by_cases hk : (kv.1 == id) = true
    · have hne' : (kv.1 == id') = false := by
        have h1 : kv.1 = id := by simpa using hk
        rw [h1]
        exact hne
      simp only [hk, if_true, hne', if_false]
      simpa using ih
    · have hhead : (if (kv.1 == id) = true then (kv.1, g kv) else kv) = kv :=
        if_neg (by simp_all)
      rw [hhead]
      cases hcase : (kv.1 == id') with
      | true => simp [hcase]
      | false =>
        rw [if_neg (by simp), if_neg (by simp)]
        exact ih

/-- Looking up the overwritten label itself. -/
theorem lookupBook_map_overwrite_self (b : Book) (id : String) (g : String × Row → Row) :
    lookupBook (b.map (fun kv => if kv.1 == id then (kv.1, g kv) else kv)) id =
      (b.find? (fun kv => kv.1 == id)).map (fun kv => g kv) := by
  induction b with
  | nil => rfl
  | cons kv t ih =>
    simp only [List.map_cons, lookupBook_cons, List.find?]
    by_cases hk : (kv.1 == id) = true
    · simp [hk]
    · simp only [Bool.not_eq_true] at hk
      simp [hk]
      simpa using ih

/-- Looking up a different label after `appendBook`. -/
theorem lookupBook_appendBook_ne (b : Book) (id0 : String) (r : Row) (id : String)
    (hne : (id0 == id) = false) :
    lookupBook (appendBook b id0 r) id = lookupBook b id := by
  rw [appendBook]
  split
  · exact lookupBook_map_overwrite_ne b id0 (fun _ => r) id hne
  · simp only [lookupBook]
    rw [List.find?_append]
    cases h : b.find? (fun kv => kv.1 == id) with
    | some kv => simp [h]
    | none => simp [h, List.find?, hne]

/-- Looking up a fresh label right after appending its row. -/
theorem lookupBook_appendBook_fresh (b : Book) (id : String) (r : Row)
    (h : bookHasKey b id = false) :
    lookupBook (appendBook b id r) id = some r := by
  rw [appendBook_fresh b id r h]
  simp only [lookupBook]
  rw [List.find?_append]
  have hnone : b.find? (fun kv => kv.1 == id) = none := by
    rw [List.find?_eq_none]
    intro kv hkv
    simp only [bookHasKey] at h
    simpa using List.any_eq_false.mp h kv hkv
  simp [hnone, List.find?]

/-- A label written by none of the entries is untouched by the whole
sequence. -/
theorem appendEntries_untouched (es : List (String × Row)) :
    ∀ (b : Book) (id : String), (∀ e ∈ es, (e.1 == id) = false) →
      countKey (appendEntries b es) id = countKey b id ∧
      lookupBook (appendEntries b es) id = lookupBook b id := by
  induction es with
  | nil => intro b id _; exact ⟨rfl, rfl⟩
  | cons e es ih =>
    intro b id h
    have he : (e.1 == id) = false := h e (by simp)
    have hrest : ∀ e' ∈ es, (e'.1 == id) = false := fun e' h' => h e' (by simp [h'])
    rw [appendEntries]
    obtain ⟨hc, hl⟩ := ih (appendBook b e.1 e.2) id hrest
    exact ⟨by rw [hc, countKey_appendBook_ne b e.1 e.2 id he],
           by rw [hl, lookupBook_appendBook_ne b e.1 e.2 id he]⟩

/-- Entries with pairwise-distinct fresh labels each append one row. -/
theorem appendEntries_length_fresh (es : List (String × Row)) :
    ∀ book : Book, (∀ e ∈ es, bookHasKey book e.1 = false) →
      (es.map Prod.fst).Nodup →
      (appendEntries book es).length = book.length + es.length := by
  induction es with
  | nil => intro book _ _; simp [appendEntries]
  | cons e es ih =>
    intro book hfresh hnodup
    rw [appendEntries]
    have hfe : bookHasKey book e.1 = false := hfresh e (by simp)
    have hncons : (e.1 :: es.map Prod.fst).Nodup := by simpa using hnodup
    have hn := List.nodup_cons.mp hncons
    have happ := appendBook_fresh book e.1 e.2 hfe
    rw [happ]
    have hfresh' : ∀ e' ∈ es, bookHasKey (book ++ [(e.1, e.2)]) e'.1 = false := by
      intro e' h'
      rw [bookHasKey_append]
      have h1 : bookHasKey book e'.1 = false := hfresh e' (by simp [h'])
      have h2 : (e.1 == e'.1) = false := by
        simp only [beq_eq_false_iff_ne]
        intro hEq
        exact hn.1 (hEq ▸ List.mem_map_of_mem Prod.fst h')
      simp [h1, h2]
    rw [ih (book ++ [(e.1, e.2)]) hfresh' hn.2]
    simp only [List.length_append, List.length_cons, List.length_nil]
    omega

/-- With pairwise-distinct fresh labels, every entry ends with exactly one
row, retrievable by its label. -/
theorem appendEntries_mem_unique (es : List (String × Row)) :
    ∀ book : Book, (∀ e ∈ es, bookHasKey book e.1 = false) →
      (es.map Prod.fst).Nodup →
      ∀ e ∈ es, countKey (appendEntries book es) e.1 = 1 ∧
        lookupBook (appendEntries book es) e.1 = some e.2 := by
  induction es with
  | nil => intro book _ _ e he; simp at he
  | cons e0 es ih =>
    intro book hfresh hnodup e he
    rw [appendEntries]
    have hfe : bookHasKey book e0.1 = false := hfresh e0 (by simp)
    have hncons : (e0.1 :: es.map Prod.fst).Nodup := by simpa using hnodup
    have hn := List.nodup_cons.mp hncons
    rcases List.mem_cons.mp he with rfl | hes
    · have huntouched : ∀ e' ∈ es, (e'.1 == e.1) = false := by
        intro e' h'
        simp only [beq_eq_false_iff_ne]
        intro hEq
        exact hn.1 (hEq ▸ List.mem_map_of_mem Prod.fst h')
      obtain ⟨hc, hl⟩ := appendEntries_untouched es (appendBook book e.1 e.2) e.1 huntouched
      constructor
      · rw [hc, appendBook_fresh book e.1 e.2 hfe, countKey_append_single,
          countKey_of_hasKey_false book e.1 hfe]
        simp
      · rw [hl]
        exact lookupBook_appendBook_fresh book e.1 e.2 hfe
    · have hfresh' : ∀ e' ∈ es, bookHasKey (appendBook book e0.1 e0.2) e'.1 = false := by
        intro e' h'
        rw [appendBook_fresh book e0.1 e0.2 hfe, bookHasKey_append]
        have h1 : bookHasKey book e'.1 = false := hfresh e' (by simp [h'])
        have h2 : (e0.1 == e'.1) = false := by
          simp only [beq_eq_false_iff_ne]
          intro hEq
          exact hn.1 (hEq ▸ List.mem_map_of_mem Prod.fst h')
        simp [h1, h2]
      exact ih (appendBook book e0.1 e0.2) hfresh' hn.2 e hes

/-- Claim C5, amended: trade ids are derived deterministically from
(entry time, security name) via `mkTradeID`; entry writes of Units with
pairwise-distinct, fresh ids produce exactly one retrievable row per Unit,
and the exit-time mutation `updateBook` of an existing row deletes nothing
(row count and label sequence are preserved); `goLong` itself writes its
entry row with `appendBook` at the derived id.  (Without the distinctness
condition two Units sharing entry time and security collapse onto one
row — see the counterexample.) -/
theorem ledger_unique_rows (book : Book) (es : List (String × Row))
    (hnodup : (es.map Prod.fst).Nodup)
    (hfresh : ∀ e ∈ es, bookHasKey book e.1 = false) :
    ((appendEntries book es).length = book.length + es.length) ∧
    (∀ e ∈ es, countKey (appendEntries book es) e.1 = 1 ∧
      lookupBook (appendEntries book es) e.1 = some e.2) ∧
    (∀ (b : Book) (id : String) (f : Row → Row), bookHasKey b id = true →
      (updateBook b id f).length = b.length ∧
      (updateBook b id f).map Prod.fst = b.map Prod.fst) ∧
    (∀ (core : PfCore) (sec : SecState) (p : ℚ) (t : String) (k : ℕ), ∃ r : Row,
      (pfGoLong core sec p t k).1.tradeBook =
        appendBook core.tradeBook (mkTradeID t sec.name) r) := by
  refine ⟨appendEntries_length_fresh es book hfresh hnodup,
    appendEntries_mem_unique es book hfresh hnodup, ?_, ?_⟩
  · intro b id f h
    rw [updateBook]
    simp only [h, if_true]
    exact ⟨by simp, map_overwrite_keys b id (fun kv => f kv.2)⟩
  · intro core sec p t k
    exact ⟨_, rfl⟩

/-- Witness for `ledger_unique_rows`: two fresh, distinct labels appended
to a one-row book. -/
theorem ledger_unique_rows_witness :
    ((appendEntries [("x", emptyRow)] [("a", emptyRow), ("b", emptyRow)]).length =
      ([("x", emptyRow)] : Book).length + 2) ∧
    (∀ e ∈ ([("a", emptyRow), ("b", emptyRow)] : List (String × Row)),
      countKey (appendEntries [("x", emptyRow)] [("a", emptyRow), ("b", emptyRow)]) e.1 = 1 ∧
      lookupBook (appendEntries [("x", emptyRow)] [("a", emptyRow), ("b", emptyRow)]) e.1 =
        some e.2) ∧
    (∀ (b : Book) (id : String) (f : Row → Row), bookHasKey b id = true →
      (updateBook b id f).length = b.length ∧
      (updateBook b id f).map Prod.fst = b.map Prod.fst) ∧
    (∀ (core : PfCore) (sec : SecState) (p : ℚ) (t : String) (k : ℕ), ∃ r : Row,
      (pfGoLong core sec p t k).1.tradeBook =
        appendBook core.tradeBook (mkTradeID t sec.name) r) :=
  ledger_unique_rows [("x", emptyRow)] [("a", emptyRow), ("b", emptyRow)]
    (by decide) (by decide)

/-- Claim C5, counterexample: at price 15 both pyramiding conditions fire
in the same tick, so `checkEntries` creates a long AND a short Unit with
the SAME trade id `"t2_A"`; the second entry row overwrites the first, and
the book ends with a single row for the two new Units. -/
theorem ledger_shared_row_cex :
    ((checkEntries ⟨coreC5, [secC5]⟩ [15] "t2" 2).toOption.map
      (fun p =>
        (p.1.core.tradeBook.length,
         p.1.securities.map (fun s => (s.longPositions.length, s.shortPositions.length)),
         p.1.securities.map (fun s =>
           ((s.longPositions.getLast?).map TUnit.tradeID,
            (s.shortPositions.getLast?).map TUnit.tradeID))))) =
      some (1, [(2, 2)], [(some "t2_A", some "t2_A")]) := by
  norm_num +decide [checkEntries, addUnits, addUnitsLoop, addUnitsStep, checkToAddMoreUnits,
    pfGoLong, pfGoShort, mkUnit, appendBook, bookHasKey, entryRow, mkTradeID, pyInt,
    unitLong10, unitShort20, secC5, secSpecimen, coreC5, coreSpecimen, Except.toOption]

/-- Claim C3: in the `"Breakout"` exit branch the SHORT side's rolling
high is taken over the last `exitLongBreakout` prior ticks, not the last
`exitShortBreakout` ticks.  With `exitLongBreakout = 1`,
`exitShortBreakout = 2`, prior prices `[5, 3]` and current price 4, the
code computes threshold 3 (the 1-tick high), closes the open short at 4
and stamps 3 as the breakout exit price — while the short side's own
window of 2 ticks gives threshold 5, and `4 > 5` fails, so per the claim
no short exit should occur. -/
theorem breakout_exit_uses_long_window :
    ((checkExits ⟨coreC3, [secC3]⟩ [4] "t9" 9).toOption.map
      (fun p =>
        (p.1.securities.map (fun s => s.shortPositions.length),
         (lookupBook p.1.core.tradeBook "tb_A").map
           (fun r => (r.breakoutExitPrice, r.exitPrice, r.exitType)),
         p.2))) =
      some ([0], some (some 3, some 4, some "Breakout"), 1) ∧
    maxQ (pyTail coreC3.exitShortBreakout secC3.histPrices) = some 5 ∧
    ¬ ((4 : ℚ) > 5) := by
  refine ⟨?_, ?_, by norm_num⟩
  · norm_num +decide [checkExits, exitsLoop, exitsBreakoutSec, closeShortsRev,
      popShortEffects, getPopStats, updateBook, bookHasKey, emptyRow, lookupBook, minQ,
      maxQ, pyTail, gtOpt, ltOpt, unitShort20, secC3, secSpecimen, coreC3, coreSpecimen,
      Except.toOption, List.find?, exitCells, stampBreakout]
  · norm_num [maxQ, pyTail, coreC3, coreSpecimen, secC3, secSpecimen]

/-- `df.loc[id, cols] = vals` leaves every other label's row alone. -/
theorem lookupBook_updateBook_ne (b : Book) (id : String) (f : Row → Row) (id' : String)
    (hne : (id == id') = false) :
    lookupBook (updateBook b id f) id' = lookupBook b id' := by
  rw [updateBook]
  split
  · exact lookupBook_map_overwrite_ne b id (fun kv => f kv.2) id' hne
  · simp only [lookupBook]
    rw [List.find?_append]
    cases h : b.find? (fun kv => kv.1 == id') with
    | some kv => simp [h]
    | none => simp [h, List.find?, hne]

/-- A present label has a first row. -/
theorem bookHasKey_find? (b : Book) (id : String) (h : bookHasKey b id = true) :
    ∃ kv, b.find? (fun kv => kv.1 == id) = some kv := by
  simp only [bookHasKey, List.any_eq_true] at h
  obtain ⟨kv, hkv, hpred⟩ := h
  have hs : (b.find? (fun kv => kv.1 == id)).isSome :=
    List.find?_isSome.mpr ⟨kv, hkv, hpred⟩
  exact Option.isSome_iff_exists.mp hs

/-- `df.loc[id, cols] = vals` leaves the row at `id` holding the updated
cells (creating the row from NaN cells when the label was absent). -/
theorem lookupBook_updateBook_self (b : Book) (id : String) (f : Row → Row) :
    lookupBook (updateBook b id f) id =
      some (f ((lookupBook b id).getD emptyRow)) := by
  rw [updateBook]
  split
  · rename_i h
    rw [lookupBook_map_overwrite_self]
    obtain ⟨kv, hkv⟩ := bookHasKey_find? b id h
    rw [hkv]
    simp [lookupBook, hkv]
  · rename_i h
    simp only [Bool.not_eq_true] at h
    have hnone : b.find? (fun kv => kv.1 == id) = none := by
      rw [List.find?_eq_none]
      intro kv hkv
      simpa using List.any_eq_false.mp h kv hkv
    have hnone' : lookupBook b id = none := by simp [lookupBook, hnone]
    simp [lookupBook, List.find?_append, hnone, hnone', List.find?]

/-- The book write of `popLong` in `updateBook` form. -/
theorem popLongEffects_book (core : PfCore) (sec : SecState) (u : TUnit) (price : ℚ)
    (time : String) :
    (popLongEffects core sec u price time).1.tradeBook =
      updateBook core.tradeBook u.tradeID
        (exitCells u.stopPrice time core.exitType price
          (getPopStats sec price u.price u.unitSize) sec.atr) := rfl

/-- The book write of `popShort` in `updateBook` form. -/
theorem popShortEffects_book (core : PfCore) (sec : SecState) (u : TUnit) (price : ℚ)
    (time : String) :
    (popShortEffects core sec u price time).1.tradeBook =
      updateBook core.tradeBook u.tradeID
        (exitCells u.stopPrice time core.exitType price
          (getPopStats sec u.price price u.unitSize) sec.atr) := rfl

/-- The units surviving the long stop sweep are exactly those whose stop
was not hit. -/
theorem sweepLongs_kept (cp : ℚ) (t : String) (us : List TUnit) :
    ∀ (core : PfCore) (sec : SecState),
      (sweepLongs cp t core sec us).2.2 = us.filter (fun u => !stopHitLong cp u) := by
  induction us with
  | nil => intro core sec; rfl
  | cons u us ih =>
    intro core sec
    rw [sweepLongs]
    cases h : stopHitLong cp u with
    | true => simp [h, List.filter_cons, ih]
    | false => simp [h, List.filter_cons, ih]

/-- The long stop sweep only changes a security's equity, never its
position lists. -/
theorem sweepLongs_sec_lists (cp : ℚ) (t : String) (us : List TUnit) :
    ∀ (core : PfCore) (sec : SecState),
      (sweepLongs cp t core sec us).2.1.longPositions = sec.longPositions ∧
      (sweepLongs cp t core sec us).2.1.shortPositions = sec.shortPositions := by
  induction us with
  | nil => intro core sec; exact ⟨rfl, rfl⟩
  | cons u us ih =>
    intro core sec
    rw [sweepLongs]
    cases h : stopHitLong cp u with
    | true =>
      simp only [h, if_true]
      exact ih core sec
    | false =>
      simp only [h]
      exact ih core sec

/-- The long stop sweep touches only the swept units' book rows. -/
theorem sweepLongs_book_untouched (cp : ℚ) (t : String) (us : List TUnit) :
    ∀ (core : PfCore) (sec : SecState) (id : String),
      (∀ v ∈ us, (v.tradeID == id) = false) →
      lookupBook (sweepLongs cp t core sec us).1.tradeBook id =
        lookupBook core.tradeBook id := by
  induction us with
  | nil => intro core sec id _; rfl
  | cons u us ih =>
    intro core sec id h
    have hu : (u.tradeID == id) = false := h u (by simp)
    have hrest : ∀ v ∈ us, (v.tradeID == id) = false := fun v hv => h v (by simp [hv])
    rw [sweepLongs]
    cases hhit : stopHitLong cp u with
    | true =>
      simp only [hhit, if_true]
      rw [lookupBook_updateBook_ne _ _ _ _ hu, popLongEffects_book,
        lookupBook_updateBook_ne _ _ _ _ hu]
      exact ih core sec id hrest
    | false =>
      simp only [hhit]
      exact ih core sec id hrest

/-- Every long unit whose stop is hit ends the sweep with its book row
showing exit type `"Stop out"` and exit price equal to the current
price. -/
theorem sweepLongs_marks (cp : ℚ) (t : String) (us : List TUnit) :
    ∀ (core : PfCore) (sec : SecState) (u : TUnit),
      u ∈ us → stopHitLong cp u = true →
      (∀ v ∈ us, v ≠ u → (v.tradeID == u.tradeID) = false) →
      ∃ r, lookupBook (sweepLongs cp t core sec us).1.tradeBook u.tradeID = some r ∧
        r.exitType = some "Stop out" ∧ r.exitPrice = some cp := by
  induction us with
  | nil => intro core sec u hu; simp at hu
  | cons v us ih =>
    intro core sec u hu hhit hids
    by_cases hvu : v = u
    · subst hvu
      rw [sweepLongs]
      simp only [hhit, if_true]
      rw [lookupBook_updateBook_self, popLongEffects_book, lookupBook_updateBook_self]
      exact ⟨_, rfl, rfl, rfl⟩
    · have hmem : u ∈ us := by
        rcases List.mem_cons.mp hu with h' | h'
        · exact absurd h'.symm hvu
        · exact h'
      have hrest : ∀ v' ∈ us, v' ≠ u → (v'.tradeID == u.tradeID) = false :=
        fun v' hv' => hids v' (by simp [hv'])
      have hvne : (v.tradeID == u.tradeID) = false := hids v (by simp) hvu
      obtain ⟨r, hr, h1, h2⟩ := ih core sec u hmem hhit hrest
      rw [sweepLongs]
      cases hhitv : stopHitLong cp v with
      | true =>
        refine ⟨r, ?_, h1, h2⟩
        simp only [hhitv, if_true]
        rw [lookupBook_updateBook_ne _ _ _ _ hvne, popLongEffects_book,
          lookupBook_updateBook_ne _ _ _ _ hvne]
        exact hr
      | false =>
        refine ⟨r, ?_, h1, h2⟩
        simp only [hhitv]
        exact hr

/-- The units surviving the short stop sweep are exactly those whose stop
was not hit. -/
theorem sweepShorts_kept (cp : ℚ) (t : String) (us : List TUnit) :
    ∀ (core : PfCore) (sec : SecState),
      (sweepShorts cp t core sec us).2.2 = us.filter (fun u => !stopHitShort cp u) := by
  induction us with
  | nil => intro core sec; rfl
  | cons u us ih =>
    intro core sec
    rw [sweepShorts]
    cases h : stopHitShort cp u with
    | true => simp [h, List.filter_cons, ih]
    | false => simp [h, List.filter_cons, ih]

/-- The short stop sweep only changes a security's equity, never its
position lists. -/
theorem sweepShorts_sec_lists (cp : ℚ) (t : String) (us : List TUnit) :
    ∀ (core : PfCore) (sec : SecState),
      (sweepShorts cp t core sec us).2.1.longPositions = sec.longPositions ∧
      (sweepShorts cp t core sec us).2.1.shortPositions = sec.shortPositions := by
  induction us with
  | nil => intro core sec; exact ⟨rfl, rfl⟩
  | cons u us ih =>
    intro core sec
    rw [sweepShorts]
    cases h : stopHitShort cp u with
    | true =>
      simp only [h, if_true]
      exact ih core sec
    | false =>
      simp only [h]
      exact ih core sec

/-- The short stop sweep touches only the swept units' book rows. -/
theorem sweepShorts_book_untouched (cp : ℚ) (t : String) (us : List TUnit) :
    ∀ (core : PfCore) (sec : SecState) (id : String),
      (∀ v ∈ us, (v.tradeID == id) = false) →
      lookupBook (sweepShorts cp t core sec us).1.tradeBook id =
        lookupBook core.tradeBook id := by
  induction us with
  | nil => intro core sec id _; rfl
  | cons u us ih =>
    intro core sec id h
    have hu : (u.tradeID == id) = false := h u (by simp)
    have hrest : ∀ v ∈ us, (v.tradeID == id) = false := fun v hv => h v (by simp [hv])
    rw [sweepShorts]
    cases hhit : stopHitShort cp u with
    | true =>
      simp only [hhit, if_true]
      rw [lookupBook_updateBook_ne _ _ _ _ hu, popShortEffects_book,
        lookupBook_updateBook_ne _ _ _ _ hu]
      exact ih core sec id hrest
    | false =>
      simp only [hhit]
      exact ih core sec id hrest

/-- Every short unit whose stop is hit ends the sweep with its book row
showing exit type `"Stop out"` and exit price equal to the current
price. -/
theorem sweepShorts_marks (cp : ℚ) (t : String) (us : List TUnit) :
    ∀ (core : PfCore) (sec : SecState) (u : TUnit),
      u ∈ us → stopHitShort cp u = true →
      (∀ v ∈ us, v ≠ u → (v.tradeID == u.tradeID) = false) →
      ∃ r, lookupBook (sweepShorts cp t core sec us).1.tradeBook u.tradeID = some r ∧
        r.exitType = some "Stop out" ∧ r.exitPrice = some cp := by
  induction us with
  | nil => intro core sec u hu; simp at hu
  | cons v us ih =>
    intro core sec u hu hhit hids
    by_cases hvu : v = u
    · subst hvu
      rw [sweepShorts]
      simp only [hhit, if_true]
      rw [lookupBook_updateBook_self, popShortEffects_book, lookupBook_updateBook_self]
      exact ⟨_, rfl, rfl, rfl⟩
    · have hmem : u ∈ us := by
        rcases List.mem_cons.mp hu with h' | h'
        · exact absurd h'.symm hvu
        · exact h'
      have hrest : ∀ v' ∈ us, v' ≠ u → (v'.tradeID == u.tradeID) = false :=
        fun v' hv' => hids v' (by simp [hv'])
      have hvne : (v.tradeID == u.tradeID) = false := hids v (by simp) hvu
      obtain ⟨r, hr, h1, h2⟩ := ih core sec u hmem hhit hrest
      rw [sweepShorts]
      cases hhitv : stopHitShort cp v with
      | true =>
        refine ⟨r, ?_, h1, h2⟩
        simp only [hhitv, if_true]
        rw [lookupBook_updateBook_ne _ _ _ _ hvne, popShortEffects_book,
          lookupBook_updateBook_ne _ _ _ _ hvne]
        exact hr
      | false =>
        refine ⟨r, ?_, h1, h2⟩
        simp only [hhitv]
        exact hr

/-- Aligned indexing into a zip, inverse direction. -/
theorem zip_get?_inv {α β : Type} (as : List α) (bs : List β) (i : ℕ) (a : α) (b : β)
    (h : (as.zip bs).get? i = some (a, b)) :
    as.get? i = some a ∧ bs.get? i = some b := by
  induction as generalizing bs i with
  | nil => simp at h
  | cons x xs ih =>
    cases bs with
    | nil => simp at h
    | cons y ys =>
      cases i with
      | zero =>
        simp only [List.zip_cons_cons, List.get?] at h
        cases h
        exact ⟨rfl, rfl⟩
      | succ j =>
        simp only [List.zip_cons_cons, List.get?] at h ⊢
        exact ih ys j h

/-- The long stop pass returns one security per input pair. -/
theorem checkStopsLongPass_length (t : String) (pairs : List (SecState × ℚ)) :
    ∀ core : PfCore, (checkStopsLongPass t core pairs).2.length = pairs.length := by
  induction pairs with
  | nil => intro core; rfl
  | cons hd rest ih =>
    intro core
    obtain ⟨sec0, cp0⟩ := hd
    rw [checkStopsLongPass]
    simp only [List.length_cons]
    rw [ih]

/-- Positional description of the long stop pass: stop-hit longs are
dropped, everything else (in particular the short list) is kept. -/
theorem checkStopsLongPass_get (t : String) (pairs : List (SecState × ℚ)) :
    ∀ (core : PfCore) (i : ℕ) (sec : SecState) (cp : ℚ),
      pairs.get? i = some (sec, cp) →
      ∃ sec', (checkStopsLongPass t core pairs).2.get? i = some sec' ∧
        sec'.longPositions = sec.longPositions.filter (fun u => !stopHitLong cp u) ∧
        sec'.shortPositions = sec.shortPositions := by
  induction pairs with
  | nil => intro core i sec cp h; simp at h
  | cons hd rest ih =>
    intro core i sec cp h
    obtain ⟨sec0, cp0⟩ := hd
    rw [checkStopsLongPass]
    cases i with
    | zero =>
      simp only [List.get?] at h
      cases h
      refine ⟨_, rfl, ?_, ?_⟩
      · exact sweepLongs_kept cp t sec.longPositions core sec
      · exact (sweepLongs_sec_lists cp t sec.longPositions core sec).2
    | succ j =>
      simp only [List.get?] at h
      exact ih _ j sec cp h

/-- The long stop pass touches only rows of swept long units. -/
theorem checkStopsLongPass_book_untouched (t : String) (pairs : List (SecState × ℚ)) :
    ∀ (core : PfCore) (id : String),
      (∀ j sec2 cp2, pairs.get? j = some (sec2, cp2) →
        ∀ v ∈ sec2.longPositions, (v.tradeID == id) = false) →
      lookupBook (checkStopsLongPass t core pairs).1.tradeBook id =
        lookupBook core.tradeBook id := by
  induction pairs with
  | nil => intro core id _; rfl
  | cons hd rest ih =>
    intro core id h
    obtain ⟨sec0, cp0⟩ := hd
    rw [checkStopsLongPass]
    have h0 : ∀ v ∈ sec0.longPositions, (v.tradeID == id) = false := h 0 sec0 cp0 rfl
    have hrest : ∀ j sec2 cp2, rest.get? j = some (sec2, cp2) →
        ∀ v ∈ sec2.longPositions, (v.tradeID == id) = false :=
      fun j sec2 cp2 hj => h (j + 1) sec2 cp2 (by simpa using hj)
    exact (ih _ id hrest).trans
      (sweepLongs_book_untouched cp0 t sec0.longPositions core sec0 id h0)

/-- After the long stop pass, every stop-hit long unit (with an id no
other long unit shares) has its `"Stop out"` row at the current price. -/
theorem checkStopsLongPass_book_marks (t : String) (pairs : List (SecState × ℚ)) :
    ∀ (core : PfCore) (i : ℕ) (sec : SecState) (cp : ℚ) (u : TUnit),
      pairs.get? i = some (sec, cp) → u ∈ sec.longPositions →
      stopHitLong cp u = true →
      (∀ j sec2 cp2, pairs.get? j = some (sec2, cp2) →
        ∀ v ∈ sec2.longPositions, (j ≠ i ∨ v ≠ u) → (v.tradeID == u.tradeID) = false) →
      ∃ r, lookupBook (checkStopsLongPass t core pairs).1.tradeBook u.tradeID = some r ∧
        r.exitType = some "Stop out" ∧ r.exitPrice = some cp := by
  induction pairs with
  | nil => intro core i sec cp u h; simp at h
  | cons hd rest ih =>
    intro core i sec cp u hget hu hhit hids
    obtain ⟨sec0, cp0⟩ := hd
    rw [checkStopsLongPass]
    cases i with
    | zero =>
      simp only [List.get?] at hget
      cases hget
      have hself : ∀ v ∈ sec.longPositions, v ≠ u → (v.tradeID == u.tradeID) = false :=
        fun v hv hne => hids 0 sec cp rfl v hv (Or.inr hne)
      obtain ⟨r, hr, h1, h2⟩ :=
        sweepLongs_marks cp t sec.longPositions core sec u hu hhit hself
      refine ⟨r, ?_, h1, h2⟩
      have hrest : ∀ j sec2 cp2, rest.get? j = some (sec2, cp2) →
          ∀ v ∈ sec2.longPositions, (v.tradeID == u.tradeID) = false := by
        intro j sec2 cp2 hj v hv
        exact hids (j + 1) sec2 cp2 (by simpa using hj) v hv (Or.inl (by omega))
      exact (checkStopsLongPass_book_untouched t rest _ u.tradeID hrest).trans hr
    | succ j' =>
      simp only [List.get?] at hget
      have hids' : ∀ j sec2 cp2, rest.get? j = some (sec2, cp2) →
          ∀ v ∈ sec2.longPositions, (j ≠ j' ∨ v ≠ u) → (v.tradeID == u.tradeID) = false := by
        intro j sec2 cp2 hj v hv hor
        refine hids (j + 1) sec2 cp2 (by simpa using hj) v hv ?_
        rcases hor with h | h
        · exact Or.inl (by omega)
        · exact Or.inr h
      exact ih _ j' sec cp u hget hu hhit hids'

/-- The short stop pass returns one security per input pair. -/
theorem checkStopsShortPass_length (t : String) (pairs : List (SecState × ℚ)) :
    ∀ core : PfCore, (checkStopsShortPass t core pairs).2.length = pairs.length := by
  induction pairs with
  | nil => intro core; rfl
  | cons hd rest ih =>
    intro core
    obtain ⟨sec0, cp0⟩ := hd
    rw [checkStopsShortPass]
    simp only [List.length_cons]
    rw [ih]

/-- Positional description of the short stop pass: stop-hit shorts are
dropped, the long list is kept. -/
theorem checkStopsShortPass_get (t : String) (pairs : List (SecState × ℚ)) :
    ∀ (core : PfCore) (i : ℕ) (sec : SecState) (cp : ℚ),
      pairs.get? i = some (sec, cp) →
      ∃ sec', (checkStopsShortPass t core pairs).2.get? i = some sec' ∧
        sec'.shortPositions = sec.shortPositions.filter (fun u => !stopHitShort cp u) ∧
        sec'.longPositions = sec.longPositions := by
  induction pairs with
  | nil => intro core i sec cp h; simp at h
  | cons hd rest ih =>
    intro core i sec cp h
    obtain ⟨sec0, cp0⟩ := hd
    rw [checkStopsShortPass]
    cases i with
    | zero =>
      simp only [List.get?] at h
      cases h
      refine ⟨_, rfl, ?_, ?_⟩
      · exact sweepShorts_kept cp t sec.shortPositions core sec
      · exact (sweepShorts_sec_lists cp t sec.shortPositions core sec).1
    | succ j =>
      simp only [List.get?] at h
      exact ih _ j sec cp h

/-- The short stop pass touches only rows of swept short units. -/
theorem checkStopsShortPass_book_untouched (t : String) (pairs : List (SecState × ℚ)) :
    ∀ (core : PfCore) (id : String),
      (∀ j sec2 cp2, pairs.get? j = some (sec2, cp2) →
        ∀ v ∈ sec2.shortPositions, (v.tradeID == id) = false) →
      lookupBook (checkStopsShortPass t core pairs).1.tradeBook id =
        lookupBook core.tradeBook id := by
  induction pairs with
  | nil => intro core id _; rfl
  | cons hd rest ih =>
    intro core id h
    obtain ⟨sec0, cp0⟩ := hd
    rw [checkStopsShortPass]
    have h0 : ∀ v ∈ sec0.shortPositions, (v.tradeID == id) = false := h 0 sec0 cp0 rfl
    have hrest : ∀ j sec2 cp2, rest.get? j = some (sec2, cp2) →
        ∀ v ∈ sec2.shortPositions, (v.tradeID == id) = false :=
      fun j sec2 cp2 hj => h (j + 1) sec2 cp2 (by simpa using hj)
    exact (ih _ id hrest).trans
      (sweepShorts_book_untouched cp0 t sec0.shortPositions core sec0 id h0)

/-- After the short stop pass, every stop-hit short unit (with an id no
other short unit shares) has its `"Stop out"` row at the current price. -/
theorem checkStopsShortPass_book_marks (t : String) (pairs : List (SecState × ℚ)) :
    ∀ (core : PfCore) (i : ℕ) (sec : SecState) (cp : ℚ) (u : TUnit),
      pairs.get? i = some (sec, cp) → u ∈ sec.shortPositions →
      stopHitShort cp u = true →
      (∀ j sec2 cp2, pairs.get? j = some (sec2, cp2) →
        ∀ v ∈ sec2.shortPositions, (j ≠ i ∨ v ≠ u) → (v.tradeID == u.tradeID) = false) →
      ∃ r, lookupBook (checkStopsShortPass t core pairs).1.tradeBook u.tradeID = some r ∧
        r.exitType = some "Stop out" ∧ r.exitPrice = some cp := by
  induction pairs with
  | nil => intro core i sec cp u h; simp at h
  | cons hd rest ih =>
    intro core i sec cp u hget hu hhit hids
    obtain ⟨sec0, cp0⟩ := hd
    rw [checkStopsShortPass]
    cases i with
    | zero =>
      simp only [List.get?] at hget
      cases hget
      have hself : ∀ v ∈ sec.shortPositions, v ≠ u → (v.tradeID == u.tradeID) = false :=
        fun v hv hne => hids 0 sec cp rfl v hv (Or.inr hne)
      obtain ⟨r, hr, h1, h2⟩ :=
        sweepShorts_marks cp t sec.shortPositions core sec u hu hhit hself
      refine ⟨r, ?_, h1, h2⟩
      have hrest : ∀ j sec2 cp2, rest.get? j = some (sec2, cp2) →
          ∀ v ∈ sec2.shortPositions, (v.tradeID == u.tradeID) = false := by
        intro j sec2 cp2 hj v hv
        exact hids (j + 1) sec2 cp2 (by simpa using hj) v hv (Or.inl (by omega))
      exact (checkStopsShortPass_book_untouched t rest _ u.tradeID hrest).trans hr
    | succ j' =>
      simp only [List.get?] at hget
      have hids' : ∀ j sec2 cp2, rest.get? j = some (sec2, cp2) →
          ∀ v ∈ sec2.shortPositions, (j ≠ j' ∨ v ≠ u) →
            (v.tradeID == u.tradeID) = false := by
        intro j sec2 cp2 hj v hv hor
        refine hids (j + 1) sec2 cp2 (by simpa using hj) v hv ?_
        rcases hor with h | h
        · exact Or.inl (by omega)
        · exact Or.inr h
      exact ih _ j' sec cp u hget hu hhit hids'

/-- Claim C4: with stops enabled, the stop-evaluation step closes every
open long Unit whose stop price exceeds the current price and every open
short Unit whose stop price is below it, at the current tick price, and
each closed Unit's book row ends with exit type `"Stop out"` and exit
price equal to the current price (the id-uniqueness hypotheses say no
other open unit shares the closed unit's trade id); and `Unit.__init__`
derives `stopPrice = entryPrice ∓ stopLossFactor·ATR`. -/
theorem stops_close_at_price_and_mark (pf : PF) (prices : List ℚ) (time : String)
    (hstops : pf.core.useStops = true) :
    (∀ i sec cp u, (pf.securities.zip prices).get? i = some (sec, cp) →
      u ∈ sec.longPositions → cp < u.stopPrice →
      (∀ j sec2 cp2, (pf.securities.zip prices).get? j = some (sec2, cp2) →
        (∀ v ∈ sec2.longPositions, (j ≠ i ∨ v ≠ u) → (v.tradeID == u.tradeID) = false) ∧
        (∀ v ∈ sec2.shortPositions, (v.tradeID == u.tradeID) = false)) →
      (∀ sec', (checkStops pf prices time).securities.get? i = some sec' →
        u ∉ sec'.longPositions) ∧
      (∃ r, lookupBook (checkStops pf prices time).core.tradeBook u.tradeID = some r ∧
        r.exitType = some "Stop out" ∧ r.exitPrice = some cp)) ∧
    (∀ i sec cp w, (pf.securities.zip prices).get? i = some (sec, cp) →
      w ∈ sec.shortPositions → w.stopPrice < cp →
      (∀ j sec2 cp2, (pf.securities.zip prices).get? j = some (sec2, cp2) →
        ∀ v ∈ sec2.shortPositions, (j ≠ i ∨ v ≠ w) → (v.tradeID == w.tradeID) = false) →
      (∀ sec', (checkStops pf prices time).securities.get? i = some sec' →
        w ∉ sec'.shortPositions) ∧
      (∃ r, lookupBook (checkStops pf prices time).core.tradeBook w.tradeID = some r ∧
        r.exitType = some "Stop out" ∧ r.exitPrice = some cp)) ∧
    (∀ (id : String) (p : ℚ) (tm : String) (tk : ℕ) (a f : ℚ) (sz : ℤ) (ls mf : ℚ)
      (nm : String), (mkUnit id true p tm tk a f sz ls mf nm).stopPrice = p - f * a) ∧
    (∀ (id : String) (p : ℚ) (tm : String) (tk : ℕ) (a f : ℚ) (sz : ℤ) (ls mf : ℚ)
      (nm : String), (mkUnit id false p tm tk a f sz ls mf nm).stopPrice = p + f * a) := by
  have hcs : checkStops pf prices time =
      ⟨(checkStopsShortPass time
          (checkStopsLongPass time pf.core (pf.securities.zip prices)).1
          ((checkStopsLongPass time pf.core (pf.securities.zip prices)).2.zip prices)).1,
        (checkStopsShortPass time
          (checkStopsLongPass time pf.core (pf.securities.zip prices)).1
          ((checkStopsLongPass time pf.core (pf.securities.zip prices)).2.zip prices)).2⟩ := by
    rw [checkStops, if_neg (by simp [hstops])]
  refine ⟨?_, ?_, ?_, ?_⟩
  · intro i sec cp u hpair hu hhit hids
    have hhit' : stopHitLong cp u = true := by simpa [stopHitLong] using hhit
    obtain ⟨hsec, hcp⟩ := zip_get?_inv pf.securities prices i sec cp hpair
    obtain ⟨sec1, hget1, hlong1, hshort1⟩ :=
      checkStopsLongPass_get time (pf.securities.zip prices) pf.core i sec cp hpair
    have hzip2 : ((checkStopsLongPass time pf.core
        (pf.securities.zip prices)).2.zip prices).get? i = some (sec1, cp) :=
      zip_get?_some _ prices i sec1 cp hget1 hcp
    have hAlen := checkStopsLongPass_length time (pf.securities.zip prices) pf.core
    have huntouch : ∀ j sec2 cp2, ((checkStopsLongPass time pf.core
        (pf.securities.zip prices)).2.zip prices).get? j = some (sec2, cp2) →
        ∀ v ∈ sec2.shortPositions, (v.tradeID == u.tradeID) = false := by
      intro j s2 c2 hj v hv
      obtain ⟨hs2, hc2⟩ := zip_get?_inv _ prices j s2 c2 hj
      have hjlt : j < (pf.securities.zip prices).length := by
        have := (List.get?_eq_some.mp hs2).1
        omega
      obtain ⟨⟨secj, cpj⟩, hpj⟩ : ∃ x, (pf.securities.zip prices).get? j = some x :=
        ⟨(pf.securities.zip prices).get ⟨j, hjlt⟩, List.get?_eq_get hjlt⟩
      obtain ⟨sec'j, hgetj, hlongj, hshortj⟩ :=
        checkStopsLongPass_get time (pf.securities.zip prices) pf.core j secj cpj hpj
      have hs2j : s2 = sec'j := by
        rw [hgetj] at hs2
        exact ((Option.some.injEq _ _).mp hs2).symm
      exact (hids j secj cpj hpj).2 v (by rw [← hshortj, ← hs2j]; exact hv)
    constructor
    · intro sec' hsec'
      rw [hcs] at hsec'
      obtain ⟨sec2', hget2, hshortf, hlongp⟩ :=
        checkStopsShortPass_get time _ _ i sec1 cp hzip2
      have : sec' = sec2' := by
        rw [hget2] at hsec'
        exact ((Option.some.injEq _ _).mp hsec').symm
      subst this
      rw [hlongp, hlong1]
      intro hmem
      have := (List.mem_filter.mp hmem).2
      simp [hhit'] at this
    · obtain ⟨r, hrA, h1, h2⟩ := checkStopsLongPass_book_marks time
        (pf.securities.zip prices) pf.core i sec cp u hpair hu hhit'
        (fun j sec2 cp2 hj => (hids j sec2 cp2 hj).1)
      refine ⟨r, ?_, h1, h2⟩
      rw [hcs]
      exact (checkStopsShortPass_book_untouched time _ _ u.tradeID huntouch).trans hrA
  · intro i sec cp w hpair hw hhit hids
    have hhit' : stopHitShort cp w = true := by simpa [stopHitShort] using hhit
    obtain ⟨hsec, hcp⟩ := zip_get?_inv pf.securities prices i sec cp hpair
    obtain ⟨sec1, hget1, hlong1, hshort1⟩ :=
      checkStopsLongPass_get time (pf.securities.zip prices) pf.core i sec cp hpair
    have hzip2 : ((checkStopsLongPass time pf.core
        (pf.securities.zip prices)).2.zip prices).get? i = some (sec1, cp) :=
      zip_get?_some _ prices i sec1 cp hget1 hcp
    have hw1 : w ∈ sec1.shortPositions := by rw [hshort1]; exact hw
    have hids2 : ∀ j sec2 cp2, ((checkStopsLongPass time pf.core
        (pf.securities.zip prices)).2.zip prices).get? j = some (sec2, cp2) →
        ∀ v ∈ sec2.shortPositions, (j ≠ i ∨ v ≠ w) → (v.tradeID == w.tradeID) = false := by
      intro j s2 c2 hj v hv hor
      obtain ⟨hs2, hc2⟩ := zip_get?_inv _ prices j s2 c2 hj
      have hjlt : j < (pf.securities.zip prices).length := by
        have := (List.get?_eq_some.mp hs2).1
        have hAlen := checkStopsLongPass_length time (pf.securities.zip prices) pf.core
        omega
      obtain ⟨⟨secj, cpj⟩, hpj⟩ : ∃ x, (pf.securities.zip prices).get? j = some x :=
        ⟨(pf.securities.zip prices).get ⟨j, hjlt⟩, List.get?_eq_get hjlt⟩
      obtain ⟨sec'j, hgetj, hlongj, hshortj⟩ :=
        checkStopsLongPass_get time (pf.securities.zip prices) pf.core j secj cpj hpj
      have hs2j : s2 = sec'j := by
        rw [hgetj] at hs2
        exact ((Option.some.injEq _ _).mp hs2).symm
      exact hids j secj cpj hpj v (by rw [← hshortj, ← hs2j]; exact hv) hor
    constructor
    · intro sec' hsec'
      rw [hcs] at hsec'
      obtain ⟨sec2', hget2, hshortf, hlongp⟩ :=
        checkStopsShortPass_get time _ _ i sec1 cp hzip2
      have : sec' = sec2' := by
        rw [hget2] at hsec'
        exact ((Option.some.injEq _ _).mp hsec').symm
      subst this
      rw [hshortf]
      intro hmem
      have := (List.mem_filter.mp hmem).2
      simp [hhit'] at this
    · obtain ⟨r, hrB, h1, h2⟩ := checkStopsShortPass_book_marks time _ _ i sec1 cp w
        hzip2 hw1 hhit' hids2
      refine ⟨r, ?_, h1, h2⟩
      rw [hcs]
      exact hrB
  · intro id p tm tk a f sz ls mf nm
    simp [mkUnit]
  · intro id p tm tk a f sz ls mf nm
    simp [mkUnit]

/-- Witness for `stops_close_at_price_and_mark`: the claim's own scenario
(long entered at 100 with stop-loss factor 2 and ATR 1, so stop 98) plus
its short mirror (stop 96); the tick price 97 removes both units and
books both with exit type `"Stop out"` at price 97. -/
theorem stops_close_at_price_and_mark_witness :
    pfStopsW.core.useStops = true ∧
    ((∀ sec', (checkStops pfStopsW [97] "tx").securities.get? 0 = some sec' →
        unitSpecimen ∉ sec'.longPositions) ∧
      ∃ r, lookupBook (checkStops pfStopsW [97] "tx").core.tradeBook unitSpecimen.tradeID
          = some r ∧ r.exitType = some "Stop out" ∧ r.exitPrice = some 97) ∧
    ((∀ sec', (checkStops pfStopsW [97] "tx").securities.get? 0 = some sec' →
        unitShortW ∉ sec'.shortPositions) ∧
      ∃ r, lookupBook (checkStops pfStopsW [97] "tx").core.tradeBook unitShortW.tradeID
          = some r ∧ r.exitType = some "Stop out" ∧ r.exitPrice = some 97) := by
  have hmain := stops_close_at_price_and_mark pfStopsW [97] "tx" rfl
  refine ⟨rfl, ?_, ?_⟩
  · refine hmain.1 0 secStopsW 97 unitSpecimen rfl (by simp [secStopsW])
      (by norm_num [unitSpecimen]) ?_
    intro j sec2 cp2 hj
    cases j with
    | zero =>
      have hj' : some (secStopsW, (97 : ℚ)) = some (sec2, cp2) := hj
      injection hj' with h
      injection h with h1 h2
      subst h1
      constructor
      · intro v hv hor
        have hv' : v = unitSpecimen := by simpa [secStopsW] using hv
        subst hv'
        rcases hor with h | h
        · exact absurd rfl h
        · exact absurd rfl h
      · intro v hv
        have hv' : v = unitShortW := by simpa [secStopsW] using hv
        subst hv'
        decide
    | succ n =>
      have hj' : (none : Option (SecState × ℚ)) = some (sec2, cp2) := hj
      exact absurd hj' (by simp)
  · refine hmain.2.1 0 secStopsW 97 unitShortW rfl (by simp [secStopsW])
      (by norm_num [unitShortW]) ?_
    intro j sec2 cp2 hj v hv hor
    cases j with
    | zero =>
      have hj' : some (secStopsW, (97 : ℚ)) = some (sec2, cp2) := hj
      injection hj' with h
      injection h with h1 h2
      subst h1
      have hv' : v = unitShortW := by simpa [secStopsW] using hv
      subst hv'
      rcases hor with h | h
      · exact absurd rfl h
      · exact absurd rfl h
    | succ n =>
      have hj' : (none : Option (SecState × ℚ)) = some (sec2, cp2) := hj
      exact absurd hj' (by simp)
